import Mathlib

/-!
# redis-ratelimit: the admission algorithm of `RateLimitImpl`

A shallow embedding of `src/ratelimits.cpp`, lines 54-141, and the properties
of it that the specification states.

* `ll_t` (`long long`) values are integers; every `+` and `-` of the source is
  followed by `wrap64`, the reduction to the two's complement range of 64 bits.
  The division of line 119 is the truncating one, and has no result when the
  divisor is zero.
* The Redis keyspace is a function from key names to entries. An entry holds
  the value of the key (absent, a string, or a value of another type) and the
  time to live set on it. A string value is represented by what
  `sscanf(..., "%lld", &reset_at)` makes of it: `some reset_at` when the
  conversion succeeds, `none` when it does not. The string made by
  `RedisModule_CreateStringFromLongLong v` converts back to `v`.
* An argument of the command that is read through
  `RedisModule_StringToLongLong` is represented by the result of that call:
  `some v`, or `none` when the call does not return `REDISMODULE_OK`.
* `now` is the timestamp of lines 41-52 (the clock, or the trailing argument),
  and the batch is the list of the `n = argc / 3` triples of arguments.
* `RateLimitTrace` lists, in program order, the operations of a call on the
  keyspace and the points at which a limiter has passed validation.
-/

namespace RateLimit

/-! ## Machine integers -/

/-- Smallest value of `ll_t`. -/
def LL_MIN : Int := -9223372036854775808

/-- Largest value of `ll_t`, `numeric_limits<ll_t>::max()`. -/
def LL_MAX : Int := 9223372036854775807

/-- Reduction of an integer to the range of `ll_t` (two's complement, 64 bits). -/
def wrap64 (x : Int) : Int :=
  (x + 9223372036854775808) % 18446744073709551616 - 9223372036854775808

/-- Addition of two `ll_t` values. -/
def add64 (a b : Int) : Int := wrap64 (a + b)

/-- Subtraction of two `ll_t` values. -/
def sub64 (a b : Int) : Int := wrap64 (a - b)

/-- The integer is a value of `ll_t`. -/
def isLL (x : Int) : Prop := LL_MIN ≤ x ∧ x ≤ LL_MAX

instance (x : Int) : Decidable (isLL x) := by unfold isLL; infer_instance

/-! ## The keyspace -/

/-- Value of a key, as `RedisModule_KeyType` and the read of lines 91-100 see it. -/
inductive KeyValue where
  /-- The key does not exist (`REDISMODULE_KEYTYPE_EMPTY`). -/
  | empty
  /-- A string (`REDISMODULE_KEYTYPE_STRING`), with the result of `sscanf "%lld"` on it. -/
  | string (reset_at : Option Int)
  /-- Any other key type. -/
  | other
  deriving DecidableEq, Repr

/-- A key of the keyspace: its value and the time to live set on it (milliseconds). -/
structure Entry where
  value : KeyValue
  expire : Option Int
  deriving DecidableEq, Repr

/-- The keyspace. -/
abbrev Store := String → Entry

/-- The call `RedisModule_StringSet key (RedisModule_CreateStringFromLongLong v)`: the key
becomes a string holding `v`; a time to live set before is dropped. The call
succeeds on a key opened for writing, as all keys are at line 82. -/
def StringSet (store : Store) (key : String) (v : Int) : Store :=
  fun k => if k = key then { value := KeyValue.string (some v), expire := none } else store k

/-- The call `RedisModule_SetExpire key ms` on a key that exists. -/
def SetExpire (store : Store) (key : String) (ms : Int) : Store :=
  fun k => if k = key then { value := (store k).value, expire := some ms } else store k

/-! ## Requests and replies -/

/-- One triple of arguments `key cost capacity` (`argv[3*i+0 .. 3*i+2]`). -/
structure LimitArg where
  key : String
  cost : Option Int
  capacity : Option Int
  deriving DecidableEq, Repr

/-- The struct `LimitRequest`; `key_handle` is the key the handle was opened
on. The three `out_` fields of the source are never read or written. -/
structure LimitRequest where
  key_handle : String
  cost : Int
  capacity : Int
  available : Int
  deriving DecidableEq, Repr

/-- The struct `LimitResponse`. -/
structure LimitResponse where
  allowed : Bool
  remaining : Int
  ready_after : Int
  reset_after : Int
  deriving DecidableEq, Repr

/-- The error replies of `RateLimitImpl`. -/
inductive Error where
  /-- Reply "Invalid arguments: cannot parse cost" -/
  | cannotParseCost
  /-- Reply "Invalid arguments: cannot capacity" -/
  | cannotParseCapacity
  /-- Reply "Invalid arguments: negative cost" -/
  | negativeCost
  /-- Reply "Invalid arguments: negative capacity" -/
  | negativeCapacity
  /-- Reply "Invalid arguments: capacity is smaller than cost" -/
  | capacitySmallerThanCost
  /-- Reply "error parsing value" -/
  | errorParsingValue
  /-- Reply `REDISMODULE_ERRORMSG_WRONGTYPE` -/
  | wrongType
  deriving DecidableEq, Repr

/-- What a call of `RateLimitImpl` does. -/
inductive Outcome where
  /-- The array reply of lines 134-138, and the keyspace the call leaves. -/
  | reply (response : LimitResponse) (store : Store)
  /-- An error reply, and the keyspace the call leaves. -/
  | error (e : Error) (store : Store)
  /-- The division of line 119 was reached with `cost = 0`. -/
  | divisionByZero

/-! ## The first loop (lines 64-112) -/

/-- Lines 86-107: the availability read from a key. -/
def deriveAvailable (now capacity : Int) : KeyValue → Except Error Int
  | KeyValue.empty => Except.ok capacity
  | KeyValue.string (some reset_at) =>
      Except.ok (max 0 (min capacity (sub64 (add64 now capacity) reset_at)))
  | KeyValue.string none => Except.error Error.errorParsingValue
  | KeyValue.other => Except.error Error.wrongType

/-- Lines 65-107: the body of the first loop for one triple of arguments, up to
the test of line 109. -/
def readLimit (store : Store) (now : Int) (a : LimitArg) : Except Error LimitRequest :=
  match a.cost with
  | none => Except.error Error.cannotParseCost
  | some cost =>
    match a.capacity with
    | none => Except.error Error.cannotParseCapacity
    | some capacity =>
      if cost < 0 then Except.error Error.negativeCost
      else if capacity < 0 then Except.error Error.negativeCapacity
      else if cost > capacity then Except.error Error.capacitySmallerThanCost
      else
        match deriveAvailable now capacity (store a.key).value with
        | Except.error e => Except.error e
        | Except.ok available =>
            Except.ok { key_handle := a.key, cost := cost, capacity := capacity,
                        available := available }

/-- The first loop, lines 64-112: it fills `limits` and clears
`response.allowed` when a limiter has less available than its cost. -/
def evaluateLoop (store : Store) (now : Int) :
    List LimitArg → LimitResponse → Except Error (List LimitRequest × LimitResponse)
  | [], response => Except.ok ([], response)
  | a :: rest, response =>
    match readLimit store now a with
    | Except.error e => Except.error e
    | Except.ok limit =>
      let response1 : LimitResponse :=
        if limit.available < limit.cost then { response with allowed := false } else response
      match evaluateLoop store now rest response1 with
      | Except.error e => Except.error e
      | Except.ok (limits, response2) => Except.ok (limit :: limits, response2)

/-! ## The second loop (lines 114-132) -/

/-- Lines 116-118: the availability of a limiter after the decision. -/
def debit (allowed : Bool) (limit : LimitRequest) : Int :=
  if allowed then sub64 limit.available limit.cost else limit.available

/-- The second loop, lines 114-132. `none` when line 119 divides by zero. -/
def commitLoop (now : Int) :
    List LimitRequest → LimitResponse → Store → Option (LimitResponse × Store)
  | [], response, store => some (response, store)
  | limit :: rest, response, store =>
    let available := debit response.allowed limit
    if limit.cost = 0 then none
    else
      let remaining := Int.tdiv available limit.cost
      let ready_after := if limit.cost > available then sub64 limit.cost available else 0
      let reset_after := sub64 limit.capacity available
      let response1 : LimitResponse :=
        { allowed := response.allowed
          remaining := min response.remaining remaining
          ready_after := max response.ready_after ready_after
          reset_after := max response.reset_after reset_after }
      let store1 := StringSet store limit.key_handle (add64 now reset_after)
      let store2 := SetExpire store1 limit.key_handle (add64 (Int.tdiv reset_after 1000000) 1)
      commitLoop now rest response1 store2

/-! ## The command -/

/-- Lines 54-59: the response before the loops. -/
def initialResponse : LimitResponse :=
  { allowed := true, remaining := LL_MAX, ready_after := 0, reset_after := 0 }

/-- The function `RateLimitImpl`, lines 54-141. -/
def RateLimitImpl (store : Store) (now : Int) (args : List LimitArg) : Outcome :=
  match evaluateLoop store now args initialResponse with
  | Except.error e => Outcome.error e store
  | Except.ok (limits, response) =>
    match commitLoop now limits response store with
    | none => Outcome.divisionByZero
    | some (response1, store1) => Outcome.reply response1 store1

/-! ## Auxiliary definitions for the statements -/

/-- The triple of arguments a request was read from. -/
def LimitRequest.arg (limit : LimitRequest) : LimitArg :=
  { key := limit.key_handle, cost := some limit.cost, capacity := some limit.capacity }

/-- Lines 119-124: one step of the fold of the second loop on the response. -/
def aggregate (response : LimitResponse) (limit : LimitRequest) : LimitResponse :=
  { allowed := response.allowed
    remaining := min response.remaining (Int.tdiv (debit response.allowed limit) limit.cost)
    ready_after := max response.ready_after
      (if limit.cost > debit response.allowed limit
        then sub64 limit.cost (debit response.allowed limit) else 0)
    reset_after := max response.reset_after (sub64 limit.capacity (debit response.allowed limit)) }

/-- Lines 121-129: the entry the second loop leaves at the key of a limiter. -/
def writtenEntry (now : Int) (allowed : Bool) (limit : LimitRequest) : Entry :=
  { value := KeyValue.string (some (add64 now (sub64 limit.capacity (debit allowed limit))))
    expire := some (add64 (Int.tdiv (sub64 limit.capacity (debit allowed limit)) 1000000) 1) }

/-- The same call made `n` times in a row, each on the keyspace the call before
left: the replies in order, or `none` when one of the calls does not reply. -/
def repeatCalls (now : Int) (args : List LimitArg) : Nat → Store → Option (List LimitResponse)
  | 0, _ => some []
  | n + 1, store =>
    match RateLimitImpl store now args with
    | Outcome.reply response store1 =>
      match repeatCalls now args n store1 with
      | some replies => some (response :: replies)
      | none => none
    | _ => none

/-- A keyspace without keys. -/
def emptyStore : Store := fun _ => { value := KeyValue.empty, expire := none }

/-- Two limiters at `now = 0`: key `a` has 50 of 100 available, key `b` has 5 of 100. -/
def scenarioStore : Store := StringSet (StringSet emptyStore "a" 50) "b" 95

/-- The batch on the keys of `scenarioStore`, cost 10 and capacity 100 each. -/
def scenarioArgs : List LimitArg := [⟨"a", some 10, some 100⟩, ⟨"b", some 10, some 100⟩]

/-- The requests the first loop fills for `scenarioArgs` on `scenarioStore` at `now = 0`. -/
def scenarioLimits : List LimitRequest := [⟨"a", 10, 100, 50⟩, ⟨"b", 10, 100, 5⟩]

/-- The keyspace the call on `scenarioStore` leaves. -/
def scenarioStoreAfter : Store :=
  SetExpire (StringSet (SetExpire (StringSet scenarioStore "a" 50) "a" 1) "b" 95) "b" 1

/-- A single limiter of cost 10 and capacity 100 on the key `a`. -/
def freshArgs : List LimitArg := [⟨"a", some 10, some 100⟩]

/-- The request the first loop fills for `freshArgs` on a keyspace without the key. -/
def freshLimits : List LimitRequest := [⟨"a", 10, 100, 100⟩]

/-- The keyspace the call of `freshArgs` at `now = 0` leaves from `emptyStore`. -/
def freshStoreAfter : Store := SetExpire (StringSet emptyStore "a" 10) "a" 1

/-- The key `k` holds `reset_at = 60`. -/
def sharedKeyStore : Store := StringSet emptyStore "k" 60

/-- Two limiters on the same key `k`, of capacities 100 and 50. -/
def sharedKeyArgs : List LimitArg := [⟨"k", some 10, some 100⟩, ⟨"k", some 10, some 50⟩]

/-- The requests the first loop fills for `sharedKeyArgs` on `sharedKeyStore` at `now = 0`. -/
def sharedKeyLimits : List LimitRequest := [⟨"k", 10, 100, 40⟩, ⟨"k", 10, 50, 0⟩]

/-- The keyspace the call of `sharedKeyArgs` at `now = 0` leaves from `sharedKeyStore`. -/
def sharedKeyStoreAfter : Store :=
  SetExpire (StringSet (SetExpire (StringSet sharedKeyStore "k" 60) "k" 1) "k" 50) "k" 1

/-- The availability of a limiter after the decision, in exact arithmetic: the
`available_after` of the specification. -/
def availableAfter (allowed : Bool) (limit : LimitRequest) : Int :=
  if allowed then limit.available - limit.cost else limit.available

/-- The keyspace the call of a limiter of cost 1 and capacity 1 on `a` leaves at
`now = LL_MAX`, from `emptyStore`. -/
def overflowStoreAfter : Store := SetExpire (StringSet emptyStore "a" LL_MIN) "a" 1

/-- The keyspace a second call of `sharedKeyArgs` at `now = 0` leaves from
`sharedKeyStoreAfter`. -/
def sharedKeyStoreAfter2 : Store :=
  SetExpire (StringSet (SetExpire (StringSet sharedKeyStoreAfter "k" 50) "k" 1) "k" 50) "k" 1

/-- A fresh limiter of cost 100 and capacity 100 on the key `a`. -/
def exhaustArgs : List LimitArg := [⟨"a", some 100, some 100⟩]

/-- The request the first loop fills for `exhaustArgs` on `emptyStore`. -/
def exhaustLimits : List LimitRequest := [⟨"a", 100, 100, 100⟩]

/-- The keyspace the call of `exhaustArgs` at `now = 0` leaves from `emptyStore`. -/
def exhaustStoreAfter : Store := SetExpire (StringSet emptyStore "a" 100) "a" 1

/-- A fresh limiter of cost 1 and capacity `2^62` on the key `a`. -/
def wideArgs : List LimitArg := [⟨"a", some 1, some 4611686018427387904⟩]

/-- The request the first loop fills for `wideArgs` on `emptyStore`. -/
def wideLimits : List LimitRequest := [⟨"a", 1, 4611686018427387904, 4611686018427387904⟩]

/-- The keyspace the call of `wideArgs` at `now = 0` leaves from `emptyStore`. -/
def wideStoreAfter : Store := SetExpire (StringSet emptyStore "a" 1) "a" 1

/-! ## The order of the operations of a call -/

/-- The steps of a call that concern the keyspace, and the completion of the
validation of a limiter; `i` is the index of the limiter in the batch. -/
inductive Event where
  /-- Limiter `i` passed the parsing and the checks of lines 66-80. -/
  | validated (i : Nat)
  /-- Lines 82-86: the key of limiter `i` is opened and its type inspected. -/
  | openKey (i : Nat)
  /-- Line 93: the string of the key of limiter `i` is read. -/
  | stringDMA (i : Nat)
  /-- Line 126: `RedisModule_StringSet` on the key of limiter `i`. -/
  | stringSet (i : Nat)
  /-- Line 129: `RedisModule_SetExpire` on the key of limiter `i`. -/
  | setExpire (i : Nat)
  deriving DecidableEq, Repr

/-- Lines 65-107: the events of the body of the first loop for limiter `i`. -/
def readLimitTrace (store : Store) (i : Nat) (a : LimitArg) : List Event :=
  match a.cost with
  | none => []
  | some cost =>
    match a.capacity with
    | none => []
    | some capacity =>
      if cost < 0 then []
      else if capacity < 0 then []
      else if cost > capacity then []
      else
        match (store a.key).value with
        | KeyValue.string _ => [Event.validated i, Event.openKey i, Event.stringDMA i]
        | _ => [Event.validated i, Event.openKey i]

/-- The events of the first loop, lines 64-112, from limiter `i` on: the loop
stops at the first limiter whose body returns an error. -/
def evaluateTrace (store : Store) (now : Int) : Nat → List LimitArg → List Event
  | _, [] => []
  | i, a :: rest =>
    readLimitTrace store i a ++
      (match readLimit store now a with
        | Except.error _ => []
        | Except.ok _ => evaluateTrace store now (i + 1) rest)

/-- The events of the second loop, lines 114-132, from limiter `i` on: the loop
stops at a division by zero. -/
def commitTrace : Nat → List LimitRequest → List Event
  | _, [] => []
  | i, limit :: rest =>
    if limit.cost = 0 then []
    else Event.stringSet i :: Event.setExpire i :: commitTrace (i + 1) rest

/-- The events of a call of `RateLimitImpl`, in program order. -/
def RateLimitTrace (store : Store) (now : Int) (args : List LimitArg) : List Event :=
  evaluateTrace store now 0 args ++
    (match evaluateLoop store now args initialResponse with
      | Except.error _ => []
      | Except.ok (limits, _) => commitTrace 0 limits)

/-- A limiter of cost 0 and capacity 100 on the key `a`. -/
def zeroCostArgs : List LimitArg := [⟨"a", some 0, some 100⟩]

/-- A valid limiter on `a` followed by a limiter of negative cost on `b`. -/
def invalidSecondArgs : List LimitArg := [⟨"a", some 10, some 100⟩, ⟨"b", some (-1), some 100⟩]

/-- The key `a` holds a value that is not a string. -/
def wrongTypeStore : Store := fun k =>
  if k = "a" then { value := KeyValue.other, expire := none }
  else { value := KeyValue.empty, expire := none }

/-- At `now = 100` the key `a` holds a `reset_at` in the past (the bucket is
full) and the key `b` holds `reset_at = now + capacity` (the bucket is empty). -/
def staleStore : Store := StringSet (StringSet emptyStore "a" 50) "b" 200

/-- The requests the first loop fills for `scenarioArgs` on `staleStore` at `now = 100`. -/
def staleLimits : List LimitRequest := [⟨"a", 10, 100, 100⟩, ⟨"b", 10, 100, 0⟩]

/-- The keyspace the call of `scenarioArgs` at `now = 100` leaves from `staleStore`. -/
def staleStoreAfter : Store :=
  SetExpire (StringSet (SetExpire (StringSet staleStore "a" 100) "a" 1) "b" 200) "b" 1

/-- The same call made `n` times in a row, each on the keyspace the call before
left: the keyspace after the last call, or `none` when a call does not reply. -/
def storeAfterCalls (now : Int) (args : List LimitArg) : Nat → Store → Option Store
  | 0, store => some store
  | n + 1, store =>
    match RateLimitImpl store now args with
    | Outcome.reply _ store1 => storeAfterCalls now args n store1
    | _ => none

/-- The keyspace after `n` admitted calls of `freshArgs` at `now = 0` from
`emptyStore`: the key `a` holds `reset_at = 10 * n`. -/
def freshStoreAfterCalls : Nat → Store
  | 0 => emptyStore
  | n + 1 => SetExpire (StringSet (freshStoreAfterCalls n) "a" (10 * (n + 1 : Nat))) "a" 1

/-- The batch `scenarioArgs` with its two limiters in the other order. -/
def scenarioArgsSwapped : List LimitArg :=
  [⟨"b", some 10, some 100⟩, ⟨"a", some 10, some 100⟩]

/-- Two limiters on the same key `k`: cost 10 with capacity 50, then cost 20 with capacity 100. -/
def sharedKeyArgsAdmitted : List LimitArg :=
  [⟨"k", some 10, some 50⟩, ⟨"k", some 20, some 100⟩]

/-- Two limiters of cost 1 and capacity 1 on the same key `k`. -/
def sharedKeyUnitArgs : List LimitArg := [⟨"k", some 1, some 1⟩, ⟨"k", some 1, some 1⟩]

/-- The availability of the specification, in exact arithmetic: the capacity
for a key that holds no `reset_at`, otherwise `now + capacity - reset_at`
clamped to `[0, capacity]`. -/
def clampAvailable (now capacity : Int) : KeyValue → Int
  | KeyValue.string (some reset_at) => max 0 (min capacity (now + capacity - reset_at))
  | _ => capacity

/-- The key `a` holds `reset_at = LL_MIN`. -/
def minResetStore : Store := StringSet emptyStore "a" LL_MIN

/-- The keyspace the call of `freshArgs` at `now = 0` leaves from `minResetStore`. -/
def minResetStoreAfter : Store := SetExpire (StringSet minResetStore "a" 100) "a" 1

/-- The key `a` holds a value that is not a string and the key `b` holds a
string that `sscanf` does not convert. -/
def unreadableStore : Store := fun k =>
  if k = "a" then { value := KeyValue.other, expire := none }
  else if k = "b" then { value := KeyValue.string none, expire := none }
  else { value := KeyValue.empty, expire := none }

/-- Two valid limiters of cost 1 and capacity 1, on the keys `a` and `b`. -/
def unitArgs : List LimitArg := [⟨"a", some 1, some 1⟩, ⟨"b", some 1, some 1⟩]

/-- The batch `unitArgs` with its two limiters in the other order. -/
def unitArgsSwapped : List LimitArg := [⟨"b", some 1, some 1⟩, ⟨"a", some 1, some 1⟩]

/-! ## Lemmas on the two loops -/

theorem wrap64_of_isLL {x : Int} (h : isLL x) : wrap64 x = x := by
  unfold isLL LL_MIN LL_MAX at h; unfold wrap64; omega

theorem deriveAvailable_bounds {now capacity available : Int} {v : KeyValue}
    (hc : 0 ≤ capacity) (h : deriveAvailable now capacity v = Except.ok available) :
    0 ≤ available ∧ available ≤ capacity := by
  cases v with
  | empty => simp [deriveAvailable] at h; omega
  | string r =>
    cases r with
    | none => simp [deriveAvailable] at h
    | some r => simp [deriveAvailable] at h; omega
  | other => simp [deriveAvailable] at h

theorem readLimit_ok {store : Store} {now : Int} {a : LimitArg} {l : LimitRequest}
    (h : readLimit store now a = Except.ok l) :
    a = ⟨l.key_handle, some l.cost, some l.capacity⟩ ∧ 0 ≤ l.cost ∧ l.cost ≤ l.capacity ∧
      deriveAvailable now l.capacity (store l.key_handle).value = Except.ok l.available := by
  obtain ⟨key, cost, capacity⟩ := a
  unfold readLimit at h
  cases cost with
  | none => simp at h
  | some cost =>
    cases capacity with
    | none => simp at h
    | some capacity =>
      simp only at h
      split_ifs at h with h1 h2 h3
      cases hd : deriveAvailable now capacity (store key).value with
      | error e => rw [hd] at h; simp at h
      | ok av =>
        rw [hd] at h
        simp only [Except.ok.injEq] at h
        subst h
        simp only [true_and]
        refine ⟨by omega, by omega, hd⟩

theorem evaluateLoop_ok {store : Store} {now : Int} :
    ∀ {args : List LimitArg} {r r1 : LimitResponse} {limits : List LimitRequest},
      evaluateLoop store now args r = Except.ok (limits, r1) →
      List.Forall₂ (fun a l => readLimit store now a = Except.ok l) args limits ∧
        r1.remaining = r.remaining ∧ r1.ready_after = r.ready_after ∧
        r1.reset_after = r.reset_after ∧
        (r1.allowed = true ↔ r.allowed = true ∧ ∀ l ∈ limits, l.cost ≤ l.available) := by
  intro args
  induction args with
  | nil =>
    intro r r1 limits h
    simp only [evaluateLoop, Except.ok.injEq, Prod.mk.injEq] at h
    obtain ⟨h1, h2⟩ := h
    subst h1; subst h2
    simp
  | cons a rest ih =>
    intro r r1 limits h
    unfold evaluateLoop at h
    cases hr : readLimit store now a with
    | error e => rw [hr] at h; simp at h
    | ok limit =>
      rw [hr] at h
      simp only at h
      generalize hq : (if limit.available < limit.cost then
        ({ r with allowed := false } : LimitResponse) else r) = q at h
      cases hrec : evaluateLoop store now rest q with
      | error e => rw [hrec] at h; simp at h
      | ok p =>
        obtain ⟨ls, r2⟩ := p
        rw [hrec] at h
        simp only [Except.ok.injEq, Prod.mk.injEq] at h
        obtain ⟨h1, h2⟩ := h
        subst h1; subst h2
        obtain ⟨f, e1, e2, e3, e4⟩ := ih hrec
        refine ⟨List.Forall₂.cons hr f, ?_, ?_, ?_, ?_⟩
        · rw [e1, ← hq]; split_ifs <;> rfl
        · rw [e2, ← hq]; split_ifs <;> rfl
        · rw [e3, ← hq]; split_ifs <;> rfl
        · rw [e4, ← hq]
          simp only [List.mem_cons, forall_eq_or_imp]
          by_cases hlt : limit.available < limit.cost
          · simp only [hlt, if_true]
            constructor
            · intro hh; simp at hh
            · intro hh; omega
          · simp only [hlt, if_false]
            constructor
            · intro hh; exact ⟨hh.1, by omega, hh.2⟩
            · intro hh; exact ⟨hh.1, hh.2.2⟩

theorem evaluateLoop_of_forall₂ {store : Store} {now : Int} :
    ∀ {args : List LimitArg} {limits : List LimitRequest} (r : LimitResponse),
      List.Forall₂ (fun a l => readLimit store now a = Except.ok l) args limits →
      ∃ r1, evaluateLoop store now args r = Except.ok (limits, r1) := by
  intro args limits r h
  induction h generalizing r with
  | nil => exact ⟨r, rfl⟩
  | @cons a l _ _ hr _ ih =>
    unfold evaluateLoop
    rw [hr]
    simp only
    obtain ⟨r1, h1⟩ := ih (if l.available < l.cost then { r with allowed := false } else r)
    rw [h1]
    exact ⟨r1, rfl⟩

theorem commitLoop_cons (now : Int) (l : LimitRequest) (rest : List LimitRequest)
    (r : LimitResponse) (s : Store) :
    commitLoop now (l :: rest) r s =
      if l.cost = 0 then none
      else commitLoop now rest (aggregate r l)
        (SetExpire (StringSet s l.key_handle (add64 now (sub64 l.capacity (debit r.allowed l))))
          l.key_handle (add64 (Int.tdiv (sub64 l.capacity (debit r.allowed l)) 1000000) 1)) := rfl

theorem commitLoop_cons_some {now : Int} {l : LimitRequest} {rest : List LimitRequest}
    {r r1 : LimitResponse} {s s1 : Store} (h : commitLoop now (l :: rest) r s = some (r1, s1)) :
    l.cost ≠ 0 ∧ commitLoop now rest (aggregate r l)
        (SetExpire (StringSet s l.key_handle (add64 now (sub64 l.capacity (debit r.allowed l))))
          l.key_handle (add64 (Int.tdiv (sub64 l.capacity (debit r.allowed l)) 1000000) 1))
        = some (r1, s1) := by
  rw [commitLoop_cons] at h
  by_cases hc : l.cost = 0
  · rw [if_pos hc] at h; simp at h
  · rw [if_neg hc] at h; exact ⟨hc, h⟩

theorem commitLoop_response {now : Int} :
    ∀ {limits : List LimitRequest} {r r1 : LimitResponse} {s s1 : Store},
      commitLoop now limits r s = some (r1, s1) → r1 = limits.foldl aggregate r := by
  intro limits
  induction limits with
  | nil =>
    intro r r1 s s1 h
    simp only [commitLoop, Option.some.injEq, Prod.mk.injEq] at h
    simp [h.1]
  | cons l rest ih =>
    intro r r1 s s1 h
    obtain ⟨_, h⟩ := commitLoop_cons_some h
    rw [List.foldl_cons]
    exact ih h

theorem foldl_aggregate_allowed :
    ∀ (limits : List LimitRequest) (r : LimitResponse),
      (limits.foldl aggregate r).allowed = r.allowed := by
  intro limits
  induction limits with
  | nil => intro r; rfl
  | cons l rest ih => intro r; rw [List.foldl_cons, ih]; rfl

theorem commitLoop_some (now : Int) :
    ∀ {limits : List LimitRequest} (r : LimitResponse) (s : Store),
      (∀ l ∈ limits, l.cost ≠ 0) → ∃ r1 s1, commitLoop now limits r s = some (r1, s1) := by
  intro limits
  induction limits with
  | nil => intro r s _; exact ⟨r, s, rfl⟩
  | cons l rest ih =>
    intro r s h
    have hl : l.cost ≠ 0 := h l (List.mem_cons_self _ _)
    rw [commitLoop_cons, if_neg hl]
    exact ih _ _ (fun l1 h1 => h l1 (List.mem_cons_of_mem _ h1))

theorem commitLoop_cost_ne {now : Int} :
    ∀ {limits : List LimitRequest} {r r1 : LimitResponse} {s s1 : Store},
      commitLoop now limits r s = some (r1, s1) → ∀ l ∈ limits, l.cost ≠ 0 := by
  intro limits
  induction limits with
  | nil => intro r r1 s s1 _ l hl; simp at hl
  | cons l rest ih =>
    intro r r1 s s1 h l1 hl1
    obtain ⟨hc, h⟩ := commitLoop_cons_some h
    rcases List.mem_cons.1 hl1 with e | e
    · subst e; exact hc
    · exact ih h l1 e

theorem commitLoop_store {now : Int} :
    ∀ {limits : List LimitRequest} {r r1 : LimitResponse} {s s1 : Store},
      commitLoop now limits r s = some (r1, s1) → ∀ k : String,
        ((∀ l ∈ limits, l.key_handle ≠ k) → s1 k = s k) ∧
        ((∃ l ∈ limits, l.key_handle = k) →
          ∃ l ∈ limits, l.key_handle = k ∧ s1 k = writtenEntry now r.allowed l) := by
  intro limits
  induction limits with
  | nil =>
    intro r r1 s s1 h k
    simp only [commitLoop, Option.some.injEq, Prod.mk.injEq] at h
    simp [h.2]
  | cons l rest ih =>
    intro r r1 s s1 h k
    obtain ⟨hc, h⟩ := commitLoop_cons_some h
    obtain ⟨ih1, ih2⟩ := ih h k
    have hal : (aggregate r l).allowed = r.allowed := rfl
    rw [hal] at ih2
    have hstep : ∀ k1 : String, k1 ≠ l.key_handle →
        SetExpire (StringSet s l.key_handle (add64 now (sub64 l.capacity (debit r.allowed l))))
          l.key_handle (add64 (Int.tdiv (sub64 l.capacity (debit r.allowed l)) 1000000) 1) k1 = s k1 := by
      intro k1 hk1
      simp [SetExpire, StringSet, hk1]
    have hhit : SetExpire (StringSet s l.key_handle (add64 now (sub64 l.capacity (debit r.allowed l))))
          l.key_handle (add64 (Int.tdiv (sub64 l.capacity (debit r.allowed l)) 1000000) 1) l.key_handle
          = writtenEntry now r.allowed l := by
      simp [SetExpire, StringSet, writtenEntry]
    constructor
    · intro hne
      rw [ih1 (fun l1 h1 => hne l1 (List.mem_cons_of_mem _ h1))]
      exact hstep k (fun e => hne l (List.mem_cons_self _ _) e.symm)
    · intro _
      by_cases hex : ∃ l1 ∈ rest, l1.key_handle = k
      · obtain ⟨l1, m1, e1, w1⟩ := ih2 hex
        exact ⟨l1, List.mem_cons_of_mem _ m1, e1, w1⟩
      · have hne : ∀ l1 ∈ rest, l1.key_handle ≠ k := fun l1 m1 e1 => hex ⟨l1, m1, e1⟩
        have hk : l.key_handle = k := by
          rename_i hx
          obtain ⟨l1, m1, e1⟩ := hx
          rcases List.mem_cons.1 m1 with e | e
          · subst e; exact e1
          · exact absurd e1 (hne l1 e)
        refine ⟨l, List.mem_cons_self _ _, hk, ?_⟩
        rw [ih1 hne, ← hk]
        exact hhit

theorem commitLoop_store_agree {now : Int} :
    ∀ {limits : List LimitRequest} {r r1 q q1 : LimitResponse} {s s1 t t1 : Store},
      r.allowed = q.allowed →
      commitLoop now limits r s = some (r1, s1) → commitLoop now limits q t = some (q1, t1) →
      ∀ k : String, ((∃ l ∈ limits, l.key_handle = k) ∨ s k = t k) → s1 k = t1 k := by
  intro limits
  induction limits with
  | nil =>
    intro r r1 q q1 s s1 t t1 _ hs ht k hk
    simp only [commitLoop, Option.some.injEq, Prod.mk.injEq] at hs ht
    rw [← hs.2, ← ht.2]
    rcases hk with ⟨l, hl, _⟩ | hk
    · simp at hl
    · exact hk
  | cons l rest ih =>
    intro r r1 q q1 s s1 t t1 ha hs ht k hk
    obtain ⟨_, hs⟩ := commitLoop_cons_some hs
    obtain ⟨_, ht⟩ := commitLoop_cons_some ht
    refine ih ?_ hs ht k ?_
    · exact ha
    · by_cases hkl : k = l.key_handle
      · right
        subst hkl
        simp [SetExpire, StringSet, ha]
      · rcases hk with ⟨l1, m1, e1⟩ | hk
        · rcases List.mem_cons.1 m1 with e | e
          · subst e; exact absurd e1.symm hkl
          · exact Or.inl ⟨l1, e, e1⟩
        · right
          simp [SetExpire, StringSet, hkl, hk]

/-! ## The claims -/

theorem RateLimitImpl_reply {store store1 : Store} {now : Int} {args : List LimitArg}
    {limits : List LimitRequest} {r1 r : LimitResponse}
    (hE : evaluateLoop store now args initialResponse = Except.ok (limits, r1))
    (hR : RateLimitImpl store now args = Outcome.reply r store1) :
    commitLoop now limits r1 store = some (r, store1) := by
  unfold RateLimitImpl at hR
  rw [hE] at hR
  simp only at hR
  cases hc : commitLoop now limits r1 store with
  | none => rw [hc] at hR; simp at hR
  | some p =>
    obtain ⟨r2, s2⟩ := p
    rw [hc] at hR
    simp only [Outcome.reply.injEq] at hR
    rw [hR.1, hR.2]

theorem RateLimitImpl_of_loops {store store1 : Store} {now : Int} {args : List LimitArg}
    {limits : List LimitRequest} {r1 r : LimitResponse}
    (hE : evaluateLoop store now args initialResponse = Except.ok (limits, r1))
    (hC : commitLoop now limits r1 store = some (r, store1)) :
    RateLimitImpl store now args = Outcome.reply r store1 := by
  unfold RateLimitImpl
  rw [hE]
  simp only
  rw [hC]

theorem RateLimitImpl_reply_evaluate {store store1 : Store} {now : Int} {args : List LimitArg}
    {r : LimitResponse} (hR : RateLimitImpl store now args = Outcome.reply r store1) :
    ∃ limits r1, evaluateLoop store now args initialResponse = Except.ok (limits, r1) := by
  unfold RateLimitImpl at hR
  cases he : evaluateLoop store now args initialResponse with
  | error e => rw [he] at hR; simp at hR
  | ok p => exact ⟨p.1, p.2, rfl⟩

/-- What the first loop establishes for each request it fills. -/
theorem forall₂_readLimit_mem {store : Store} {now : Int} {args : List LimitArg}
    {limits : List LimitRequest}
    (h : List.Forall₂ (fun a l => readLimit store now a = Except.ok l) args limits) :
    args = limits.map LimitRequest.arg ∧
      ∀ l ∈ limits, 0 ≤ l.cost ∧ l.cost ≤ l.capacity ∧ 0 ≤ l.available ∧
        l.available ≤ l.capacity ∧
        deriveAvailable now l.capacity (store l.key_handle).value = Except.ok l.available := by
  induction h with
  | nil => simp
  | @cons a l _ _ hr _ ih =>
    obtain ⟨e, h0, h1, hd⟩ := readLimit_ok hr
    obtain ⟨b0, b1⟩ := deriveAvailable_bounds (by omega) hd
    refine ⟨?_, ?_⟩
    · rw [List.map_cons, ← ih.1, e]; rfl
    · intro l1 hl1
      rcases List.mem_cons.1 hl1 with e1 | e1
      · subst e1; exact ⟨h0, h1, b0, b1, hd⟩
      · exact ih.2 l1 e1

theorem deriveAvailable_exact {now capacity reset_at : Int}
    (h : isLL (now + capacity - reset_at)) :
    deriveAvailable now capacity (KeyValue.string (some reset_at)) =
      Except.ok (max 0 (min capacity (now + capacity - reset_at))) := by
  have e : sub64 (add64 now capacity) reset_at = now + capacity - reset_at := by
    unfold isLL LL_MIN LL_MAX at h; unfold sub64 add64 wrap64; omega
  simp only [deriveAvailable, e]

/-- The availability the first loop derives is the clamp of the specification
when the difference `now + capacity - reset_at` fits `ll_t`. -/
theorem available_eq_clamp {now capacity available : Int} {v : KeyValue}
    (hd : deriveAvailable now capacity v = Except.ok available)
    (hx : ∀ reset_at : Int, v = KeyValue.string (some reset_at) →
      isLL (now + capacity - reset_at)) :
    available = clampAvailable now capacity v := by
  cases v with
  | empty => exact (Except.ok.inj hd).symm
  | other => simp [deriveAvailable] at hd
  | string s =>
    cases s with
    | none => simp [deriveAvailable] at hd
    | some reset_at =>
      rw [deriveAvailable_exact (hx reset_at rfl)] at hd
      exact (Except.ok.inj hd).symm

/-- C1, as stated, fails: with `reset_at = LL_MIN` stored at `now = 0`, the
limiter of cost 10 and capacity 100 has the clamp
`clamp(0, capacity, now + capacity - reset_at) = 100 >= cost`, but the
difference does not fit `ll_t`, line 101 derives 0 and the reply has
`allowed = false`; and the batch of one limiter of cost 0 passes validation on
a readable key and has no reply at all. -/
theorem allowed_differs_from_exact_clamp :
    evaluateLoop minResetStore 0 freshArgs initialResponse
        = Except.ok ([⟨"a", 10, 100, 0⟩], ⟨false, LL_MAX, 0, 0⟩) ∧
      RateLimitImpl minResetStore 0 freshArgs
        = Outcome.reply ⟨false, 0, 10, 100⟩ minResetStoreAfter ∧
      clampAvailable 0 100 (minResetStore "a").value = 100 ∧
      (10 : Int) ≤ 100 ∧
      evaluateLoop emptyStore 0 zeroCostArgs initialResponse
        = Except.ok ([⟨"a", 0, 100, 100⟩], initialResponse) ∧
      RateLimitImpl emptyStore 0 zeroCostArgs = Outcome.divisionByZero :=
  ⟨rfl, rfl, rfl, by decide, rfl, rfl⟩

/-- C1, amended: for every batch that passes the first loop (every limiter is
valid and every key is readable) with all costs `> 0`, and such that
`now + capacity - reset_at` fits `ll_t` for every limiter whose key holds a
`reset_at`, the call replies, the availability of each limiter is the capacity
for a key that does not exist and otherwise
`clamp(0, capacity, now + capacity - reset_at)`, and the `allowed` flag of the
reply is true if and only if that availability is `>=` the cost for every
limiter of the batch. -/
theorem allowed_iff_all_available (store : Store) (now : Int) (args : List LimitArg)
    (limits : List LimitRequest) (r1 : LimitResponse)
    (hE : evaluateLoop store now args initialResponse = Except.ok (limits, r1))
    (hCost : ∀ l ∈ limits, 0 < l.cost)
    (hExact : ∀ l ∈ limits, ∀ reset_at : Int,
      (store l.key_handle).value = KeyValue.string (some reset_at) →
      isLL (now + l.capacity - reset_at)) :
    ∃ r store1, RateLimitImpl store now args = Outcome.reply r store1 ∧
      args = limits.map LimitRequest.arg ∧
      (∀ l ∈ limits,
        l.available = clampAvailable now l.capacity (store l.key_handle).value) ∧
      (r.allowed = true ↔
        ∀ l ∈ limits, l.cost ≤ clampAvailable now l.capacity (store l.key_handle).value) := by
  obtain ⟨hf, _, _, _, ha⟩ := evaluateLoop_ok hE
  obtain ⟨hargs, hv⟩ := forall₂_readLimit_mem hf
  obtain ⟨r, store1, hC⟩ := commitLoop_some now r1 store
    (fun l hl => ne_of_gt (hCost l hl))
  have hav : ∀ l ∈ limits,
      l.available = clampAvailable now l.capacity (store l.key_handle).value :=
    fun l hl => available_eq_clamp (hv l hl).2.2.2.2 (hExact l hl)
  refine ⟨r, store1, RateLimitImpl_of_loops hE hC, hargs, hav, ?_⟩
  rw [commitLoop_response hC, foldl_aggregate_allowed, ha]
  constructor
  · intro h l hl
    rw [← hav l hl]
    exact h.2 l hl
  · intro h
    refine ⟨rfl, fun l hl => ?_⟩
    rw [hav l hl]
    exact h l hl

theorem allowed_iff_all_available_witness :
    evaluateLoop scenarioStore 0 scenarioArgs initialResponse
        = Except.ok (scenarioLimits, ⟨false, LL_MAX, 0, 0⟩) ∧
      ∃ r store1, RateLimitImpl scenarioStore 0 scenarioArgs = Outcome.reply r store1 ∧
        (r.allowed = true ↔
          ∀ l ∈ scenarioLimits,
            l.cost ≤ clampAvailable 0 l.capacity (scenarioStore l.key_handle).value) :=
  ⟨rfl,
    (allowed_iff_all_available scenarioStore 0 scenarioArgs scenarioLimits
      ⟨false, LL_MAX, 0, 0⟩ rfl (by decide)
      (by
        intro l hl reset_at hs
        simp only [scenarioLimits, List.mem_cons, List.mem_singleton, List.not_mem_nil,
          or_false] at hl
        rcases hl with rfl | rfl
        · have e : (scenarioStore "a").value = KeyValue.string (some 50) := rfl
          rw [e] at hs
          simp only [KeyValue.string.injEq, Option.some.injEq] at hs
          subst hs
          decide
        · have e : (scenarioStore "b").value = KeyValue.string (some 95) := rfl
          rw [e] at hs
          simp only [KeyValue.string.injEq, Option.some.injEq] at hs
          subst hs
          decide)).imp
      (fun _ h => h.imp (fun _ h1 => ⟨h1.1, h1.2.2.2⟩))⟩

theorem deriveAvailable_written {now capacity a : Int}
    (h0 : 0 ≤ a) (h1 : a ≤ capacity) (h2 : capacity ≤ LL_MAX) :
    deriveAvailable now capacity (KeyValue.string (some (add64 now (sub64 capacity a)))) =
      Except.ok a := by
  have e : sub64 (add64 now capacity) (add64 now (sub64 capacity a)) = a := by
    unfold LL_MAX at h2; unfold sub64 add64 wrap64; omega
  simp only [deriveAvailable, e, Except.ok.injEq]
  omega

theorem deriveAvailable_written_later {now capacity a d : Int}
    (h0 : 0 ≤ a) (h1 : a ≤ capacity) (hd : 0 ≤ d) (h2 : a + d ≤ LL_MAX) :
    deriveAvailable (now + d) capacity (KeyValue.string (some (add64 now (sub64 capacity a)))) =
      Except.ok (min capacity (a + d)) := by
  have e : sub64 (add64 (now + d) capacity) (add64 now (sub64 capacity a)) = a + d := by
    unfold LL_MAX at h2; unfold sub64 add64 wrap64; omega
  simp only [deriveAvailable, e, Except.ok.injEq]
  omega

theorem debit_eq {allowed : Bool} {l : LimitRequest}
    (h1 : l.available ≤ l.capacity) (h2 : l.capacity ≤ LL_MAX)
    (h3 : allowed = true → l.cost ≤ l.available) (h4 : 0 ≤ l.cost) :
    debit allowed l = if allowed = true then l.available - l.cost else l.available := by
  unfold debit
  cases allowed with
  | false => simp
  | true =>
    have := h3 rfl
    simp only [if_true]
    unfold LL_MAX at h2; unfold sub64 wrap64; omega

theorem commitLoop_written {now : Int} {limits : List LimitRequest} {r r1 : LimitResponse}
    {s s1 : Store} (hC : commitLoop now limits r s = some (r1, s1))
    (hKeys : (limits.map LimitRequest.key_handle).Nodup) :
    ∀ l ∈ limits, s1 l.key_handle = writtenEntry now r.allowed l := by
  intro l hl
  obtain ⟨l1, m1, e1, w1⟩ := (commitLoop_store hC l.key_handle).2 ⟨l, hl, rfl⟩
  have : l1 = l := List.inj_on_of_nodup_map hKeys m1 hl e1
  rw [w1, this]

theorem deriveAvailable_unique {now capacity a b : Int} {v : KeyValue}
    (ha : deriveAvailable now capacity v = Except.ok a)
    (hb : deriveAvailable now capacity v = Except.ok b) : a = b := by
  rw [ha] at hb
  exact Except.ok.inj hb

/-- For a batch with pairwise distinct keys that passes the first loop, in
which no cost is zero and every limiter has at least its cost available, and
for which the sum of line 126 fits `ll_t`: the call replies with
`allowed = true`, stores `reset_at = now + capacity - (available_before - cost)`
at the key of each limiter, and the availability derived again from the new
keyspace at the same `now` and capacity is `available_before - cost`. -/
theorem admitted_batch_debits_cost (store : Store) (now : Int) (args : List LimitArg)
    (limits : List LimitRequest) (r1 : LimitResponse)
    (hE : evaluateLoop store now args initialResponse = Except.ok (limits, r1))
    (hKeys : (limits.map LimitRequest.key_handle).Nodup)
    (hAdm : ∀ l ∈ limits, l.cost ≤ l.available)
    (hCost : ∀ l ∈ limits, l.cost ≠ 0)
    (hLL : ∀ l ∈ limits, isLL l.capacity)
    (hExact : ∀ l ∈ limits, isLL (now + (l.capacity - (l.available - l.cost)))) :
    ∃ r store1, RateLimitImpl store now args = Outcome.reply r store1 ∧
      r.allowed = true ∧
      ∀ l ∈ limits,
        (store1 l.key_handle).value =
            KeyValue.string (some (now + l.capacity - (l.available - l.cost))) ∧
          deriveAvailable now l.capacity (store1 l.key_handle).value =
            Except.ok (l.available - l.cost) := by
  obtain ⟨r, store1, hC⟩ := commitLoop_some now r1 store hCost
  obtain ⟨hf, _, _, _, ha⟩ := evaluateLoop_ok hE
  obtain ⟨_, hv⟩ := forall₂_readLimit_mem hf
  have hr1 : r1.allowed = true := ha.2 ⟨rfl, hAdm⟩
  refine ⟨r, store1, RateLimitImpl_of_loops hE hC,
    by rw [commitLoop_response hC, foldl_aggregate_allowed, hr1], ?_⟩
  intro l hl
  obtain ⟨c0, c1, a0, a1, _⟩ := hv l hl
  have hcap := (hLL l hl).2
  have hdeb : debit true l = l.available - l.cost := by
    rw [debit_eq a1 hcap (fun _ => hAdm l hl) c0]; simp
  have hw := commitLoop_written hC hKeys l hl
  rw [hr1] at hw
  have hex := hExact l hl
  have hA := hAdm l hl
  have hval : (store1 l.key_handle).value =
      KeyValue.string (some (add64 now (sub64 l.capacity (l.available - l.cost)))) := by
    rw [hw, writtenEntry, hdeb]
  constructor
  · rw [hval]
    have e : add64 now (sub64 l.capacity (l.available - l.cost)) =
        now + l.capacity - (l.available - l.cost) := by
      unfold isLL LL_MIN LL_MAX at hex; unfold LL_MAX at hcap
      unfold add64 sub64 wrap64; omega
    rw [e]
  · rw [hval]
    exact deriveAvailable_written (by omega) (by omega) hcap

/-- C2: the claim fails on the code at a cost of 0. On a keyspace without the
key, the batch of one limiter of cost 0 and capacity 100 passes the first loop
with `allowed = true` (100 available for a cost of 0) and the second loop then
divides by zero at line 119: nothing is stored and there is no reply. -/
theorem admitted_zero_cost_batch_has_no_reply :
    evaluateLoop emptyStore 0 zeroCostArgs initialResponse
        = Except.ok ([⟨"a", 0, 100, 100⟩], initialResponse) ∧
      initialResponse.allowed = true ∧
      (∀ l ∈ [(⟨"a", 0, 100, 100⟩ : LimitRequest)], l.cost ≤ l.available) ∧
      commitLoop 0 [⟨"a", 0, 100, 100⟩] initialResponse emptyStore = none ∧
      RateLimitImpl emptyStore 0 zeroCostArgs = Outcome.divisionByZero :=
  ⟨rfl, rfl, by decide, rfl, rfl⟩

/-- C3, as stated, fails: with the key `k` named by two limiters of capacities
100 and 50 and `reset_at = 60` stored at `now = 0`, the batch is denied (the
second limiter has 0 available for a cost of 10), and the first limiter, which
had 40 available, has 50 available on the keyspace the call leaves. -/
theorem denied_shared_key_changes_available :
    evaluateLoop sharedKeyStore 0 sharedKeyArgs initialResponse
        = Except.ok (sharedKeyLimits, ⟨false, LL_MAX, 0, 0⟩) ∧
      RateLimitImpl sharedKeyStore 0 sharedKeyArgs
        = Outcome.reply ⟨false, 0, 10, 60⟩ sharedKeyStoreAfter ∧
      deriveAvailable 0 100 (sharedKeyStore "k").value = Except.ok 40 ∧
      deriveAvailable 0 100 (sharedKeyStoreAfter "k").value = Except.ok 50 :=
  ⟨rfl, rfl, rfl, rfl⟩

theorem denied_keeps_available_of_commit {store store1 : Store} {now : Int}
    {args : List LimitArg} {limits : List LimitRequest} {r1 r : LimitResponse}
    (hE : evaluateLoop store now args initialResponse = Except.ok (limits, r1))
    (hC : commitLoop now limits r1 store = some (r, store1))
    (hDen : ∃ l ∈ limits, l.available < l.cost)
    (hCap : ∀ l ∈ limits, ∀ l1 ∈ limits,
      l.key_handle = l1.key_handle → l.capacity = l1.capacity)
    (hLL : ∀ l ∈ limits, isLL l.capacity) :
    ∀ l ∈ limits,
      deriveAvailable now l.capacity (store1 l.key_handle).value = Except.ok l.available := by
  obtain ⟨hf, _, _, _, ha⟩ := evaluateLoop_ok hE
  obtain ⟨_, hv⟩ := forall₂_readLimit_mem hf
  have hr1 : r1.allowed = false := by
    cases h : r1.allowed with
    | false => rfl
    | true =>
      obtain ⟨l, hl, hlt⟩ := hDen
      have := (ha.1 h).2 l hl
      omega
  intro l hl
  obtain ⟨l1, m1, e1, w1⟩ := (commitLoop_store hC l.key_handle).2 ⟨l, hl, rfl⟩
  obtain ⟨_, _, a0, a1, d⟩ := hv l hl
  obtain ⟨_, _, _, _, d1⟩ := hv l1 m1
  have hc : l1.capacity = l.capacity := hCap l1 m1 l hl e1
  rw [hc, e1] at d1
  have hav : l1.available = l.available := deriveAvailable_unique d1 d
  rw [w1, hr1, writtenEntry]
  simp only [debit, Bool.false_eq_true, if_false]
  rw [hc, hav]
  exact deriveAvailable_written a0 a1 (hLL l hl).2

/-- C3, amended: for every denied batch in which the limiters that name the
same key have the same capacity (so for every denied batch with pairwise
distinct keys), a call that replies has `allowed = false` and the availability
of every limiter derived from the keyspace after the call, at the same `now`
and capacity, is its availability before the call. -/
theorem denied_batch_keeps_available (store store1 : Store) (now : Int) (args : List LimitArg)
    (limits : List LimitRequest) (r1 r : LimitResponse)
    (hE : evaluateLoop store now args initialResponse = Except.ok (limits, r1))
    (hR : RateLimitImpl store now args = Outcome.reply r store1)
    (hDen : ∃ l ∈ limits, l.available < l.cost)
    (hCap : ∀ l ∈ limits, ∀ l1 ∈ limits,
      l.key_handle = l1.key_handle → l.capacity = l1.capacity)
    (hLL : ∀ l ∈ limits, isLL l.capacity) :
    r.allowed = false ∧
      ∀ l ∈ limits,
        deriveAvailable now l.capacity (store1 l.key_handle).value = Except.ok l.available := by
  have hC := RateLimitImpl_reply hE hR
  obtain ⟨_, _, _, _, ha⟩ := evaluateLoop_ok hE
  have hr1 : r1.allowed = false := by
    cases h : r1.allowed with
    | false => rfl
    | true =>
      obtain ⟨l, hl, hlt⟩ := hDen
      have := (ha.1 h).2 l hl
      omega
  exact ⟨by rw [commitLoop_response hC, foldl_aggregate_allowed, hr1],
    denied_keeps_available_of_commit hE hC hDen hCap hLL⟩

theorem denied_batch_keeps_available_witness :
    evaluateLoop scenarioStore 0 scenarioArgs initialResponse
        = Except.ok (scenarioLimits, ⟨false, LL_MAX, 0, 0⟩) ∧
      RateLimitImpl scenarioStore 0 scenarioArgs
        = Outcome.reply ⟨false, 0, 5, 95⟩ scenarioStoreAfter ∧
      deriveAvailable 0 100 (scenarioStore "a").value = Except.ok 50 ∧
      deriveAvailable 0 100 (scenarioStoreAfter "a").value = Except.ok 50 :=
  ⟨rfl, rfl, rfl,
    (denied_batch_keeps_available scenarioStore scenarioStoreAfter 0 scenarioArgs
      scenarioLimits ⟨false, LL_MAX, 0, 0⟩ ⟨false, 0, 5, 95⟩ rfl rfl
      ⟨⟨"b", 10, 100, 5⟩, by decide, by decide⟩ (by decide) (by decide)).2
      ⟨"a", 10, 100, 50⟩ (by decide)⟩

theorem limit_exact {allowed : Bool} {l : LimitRequest}
    (c0 : 0 ≤ l.cost) (c1 : l.cost ≤ l.capacity) (a0 : 0 ≤ l.available)
    (a1 : l.available ≤ l.capacity) (h2 : l.capacity ≤ LL_MAX)
    (h3 : allowed = true → l.cost ≤ l.available) :
    debit allowed l = availableAfter allowed l ∧
      0 ≤ availableAfter allowed l ∧ availableAfter allowed l ≤ l.capacity ∧
      Int.tdiv (debit allowed l) l.cost = availableAfter allowed l / l.cost ∧
      (if l.cost > debit allowed l then sub64 l.cost (debit allowed l) else 0) =
        max 0 (l.cost - availableAfter allowed l) ∧
      sub64 l.capacity (debit allowed l) = l.capacity - availableAfter allowed l := by
  have hd : debit allowed l = availableAfter allowed l := by
    rw [debit_eq a1 h2 h3 c0]; rfl
  have hb : 0 ≤ availableAfter allowed l ∧ availableAfter allowed l ≤ l.capacity := by
    unfold availableAfter
    cases allowed with
    | false => simp; omega
    | true => have := h3 rfl; simp; omega
  refine ⟨hd, hb.1, hb.2, ?_, ?_, ?_⟩
  · rw [hd]; exact Int.tdiv_eq_ediv hb.1 c0
  · rw [hd]
    obtain ⟨b0, b1⟩ := hb
    generalize availableAfter allowed l = x at b0 b1
    unfold LL_MAX at h2
    split_ifs with hlt
    · unfold sub64 wrap64; omega
    · omega
  · rw [hd]
    obtain ⟨b0, b1⟩ := hb
    generalize availableAfter allowed l = x at b0 b1
    unfold LL_MAX at h2
    unfold sub64 wrap64; omega

theorem foldl_aggregate_remaining :
    ∀ (limits : List LimitRequest) (r : LimitResponse),
      (limits.foldl aggregate r).remaining ≤ r.remaining ∧
      (∀ l ∈ limits,
        (limits.foldl aggregate r).remaining ≤ Int.tdiv (debit r.allowed l) l.cost) ∧
      ((limits.foldl aggregate r).remaining = r.remaining ∨
        ∃ l ∈ limits,
          (limits.foldl aggregate r).remaining = Int.tdiv (debit r.allowed l) l.cost) := by
  intro limits
  induction limits with
  | nil => intro r; simp
  | cons l rest ih =>
    intro r
    obtain ⟨h1, h2, h3⟩ := ih (aggregate r l)
    rw [List.foldl_cons]
    have ea : (aggregate r l).allowed = r.allowed := rfl
    have er : (aggregate r l).remaining = min r.remaining (Int.tdiv (debit r.allowed l) l.cost) :=
      rfl
    rw [ea] at h2 h3
    rw [er] at h1 h3
    refine ⟨by omega, ?_, ?_⟩
    · intro l1 hl1
      rcases List.mem_cons.1 hl1 with e | e
      · subst e; omega
      · exact h2 l1 e
    · rcases h3 with h3 | ⟨l1, m1, e1⟩
      · by_cases hle : r.remaining ≤ Int.tdiv (debit r.allowed l) l.cost
        · left; omega
        · right; exact ⟨l, List.mem_cons_self _ _, by omega⟩
      · right; exact ⟨l1, List.mem_cons_of_mem _ m1, e1⟩

theorem foldl_aggregate_ready_after :
    ∀ (limits : List LimitRequest) (r : LimitResponse),
      r.ready_after ≤ (limits.foldl aggregate r).ready_after ∧
      (∀ l ∈ limits,
        (if l.cost > debit r.allowed l then sub64 l.cost (debit r.allowed l) else 0)
          ≤ (limits.foldl aggregate r).ready_after) ∧
      ((limits.foldl aggregate r).ready_after = r.ready_after ∨
        ∃ l ∈ limits, (limits.foldl aggregate r).ready_after =
          (if l.cost > debit r.allowed l then sub64 l.cost (debit r.allowed l) else 0)) := by
  intro limits
  induction limits with
  | nil => intro r; simp
  | cons l rest ih =>
    intro r
    obtain ⟨h1, h2, h3⟩ := ih (aggregate r l)
    rw [List.foldl_cons]
    have ea : (aggregate r l).allowed = r.allowed := rfl
    have er : (aggregate r l).ready_after = max r.ready_after
        (if l.cost > debit r.allowed l then sub64 l.cost (debit r.allowed l) else 0) := rfl
    rw [ea] at h2 h3
    rw [er] at h1 h3
    generalize hq :
      (if l.cost > debit r.allowed l then sub64 l.cost (debit r.allowed l) else 0) = q at h1 h3
    refine ⟨by omega, ?_, ?_⟩
    · intro l1 hl1
      rcases List.mem_cons.1 hl1 with e | e
      · rw [e, hq]; omega
      · exact h2 l1 e
    · rcases h3 with h3 | ⟨l1, m1, e1⟩
      · by_cases hle : q ≤ r.ready_after
        · left; omega
        · right; exact ⟨l, List.mem_cons_self _ _, by rw [hq]; omega⟩
      · right; exact ⟨l1, List.mem_cons_of_mem _ m1, e1⟩

theorem foldl_aggregate_reset_after :
    ∀ (limits : List LimitRequest) (r : LimitResponse),
      r.reset_after ≤ (limits.foldl aggregate r).reset_after ∧
      (∀ l ∈ limits,
        sub64 l.capacity (debit r.allowed l) ≤ (limits.foldl aggregate r).reset_after) ∧
      ((limits.foldl aggregate r).reset_after = r.reset_after ∨
        ∃ l ∈ limits, (limits.foldl aggregate r).reset_after =
          sub64 l.capacity (debit r.allowed l)) := by
  intro limits
  induction limits with
  | nil => intro r; simp
  | cons l rest ih =>
    intro r
    obtain ⟨h1, h2, h3⟩ := ih (aggregate r l)
    rw [List.foldl_cons]
    have ea : (aggregate r l).allowed = r.allowed := rfl
    have er : (aggregate r l).reset_after =
        max r.reset_after (sub64 l.capacity (debit r.allowed l)) := rfl
    rw [ea] at h2 h3
    rw [er] at h1 h3
    refine ⟨by omega, ?_, ?_⟩
    · intro l1 hl1
      rcases List.mem_cons.1 hl1 with e | e
      · subst e; omega
      · exact h2 l1 e
    · rcases h3 with h3 | ⟨l1, m1, e1⟩
      · by_cases hle : sub64 l.capacity (debit r.allowed l) ≤ r.reset_after
        · left; omega
        · right; exact ⟨l, List.mem_cons_self _ _, by omega⟩
      · right; exact ⟨l1, List.mem_cons_of_mem _ m1, e1⟩

/-- What the first loop and the decision establish for each request: the
quantities of the second loop are those of exact arithmetic. -/
theorem limits_exact {store : Store} {now : Int} {args : List LimitArg}
    {limits : List LimitRequest} {r1 : LimitResponse}
    (hE : evaluateLoop store now args initialResponse = Except.ok (limits, r1))
    (hLL : ∀ l ∈ limits, isLL l.capacity) :
    ∀ l ∈ limits, 0 ≤ l.cost ∧ l.cost ≤ l.capacity ∧
      debit r1.allowed l = availableAfter r1.allowed l ∧
      0 ≤ availableAfter r1.allowed l ∧ availableAfter r1.allowed l ≤ l.capacity ∧
      Int.tdiv (debit r1.allowed l) l.cost = availableAfter r1.allowed l / l.cost ∧
      (if l.cost > debit r1.allowed l then sub64 l.cost (debit r1.allowed l) else 0) =
        max 0 (l.cost - availableAfter r1.allowed l) ∧
      sub64 l.capacity (debit r1.allowed l) = l.capacity - availableAfter r1.allowed l := by
  obtain ⟨hf, _, _, _, ha⟩ := evaluateLoop_ok hE
  obtain ⟨_, hv⟩ := forall₂_readLimit_mem hf
  intro l hl
  obtain ⟨c0, c1, a0, a1, _⟩ := hv l hl
  exact ⟨c0, c1, limit_exact c0 c1 a0 a1 (hLL l hl).2 (fun h => (ha.1 h).2 l hl)⟩

/-- C4: for every `now`, every stored `reset_at` and every capacity `>= 0`, the
availability derived from the key is a value in `[0, capacity]`; and for every
batch that passes the first loop, the availability of each limiter before and
after the decision of the second loop (debited or not) is in `[0, capacity]`. -/
theorem available_within_capacity :
    (∀ now reset_at capacity : Int, 0 ≤ capacity →
      ∃ available, deriveAvailable now capacity (KeyValue.string (some reset_at))
          = Except.ok available ∧ 0 ≤ available ∧ available ≤ capacity) ∧
    (∀ (store : Store) (now : Int) (args : List LimitArg) (limits : List LimitRequest)
        (r1 : LimitResponse),
      evaluateLoop store now args initialResponse = Except.ok (limits, r1) →
      (∀ l ∈ limits, isLL l.capacity) →
      ∀ l ∈ limits, 0 ≤ l.capacity ∧ (0 ≤ l.available ∧ l.available ≤ l.capacity) ∧
        (0 ≤ debit r1.allowed l ∧ debit r1.allowed l ≤ l.capacity)) := by
  constructor
  · intro now reset_at capacity hc
    have e : deriveAvailable now capacity (KeyValue.string (some reset_at)) =
        Except.ok (max 0 (min capacity (sub64 (add64 now capacity) reset_at))) := rfl
    exact ⟨_, e, deriveAvailable_bounds hc e⟩
  · intro store now args limits r1 hE hLL l hl
    obtain ⟨hf, _⟩ := evaluateLoop_ok hE
    obtain ⟨_, hv⟩ := forall₂_readLimit_mem hf
    obtain ⟨c0, c1, a0, a1, _⟩ := hv l hl
    obtain ⟨_, _, hd, b0, b1, _⟩ := limits_exact hE hLL l hl
    rw [hd]
    exact ⟨by omega, ⟨a0, a1⟩, b0, b1⟩

theorem available_within_capacity_witness :
    0 ≤ debit true ⟨"a", 10, 100, 100⟩ ∧ debit true ⟨"a", 10, 100, 100⟩ ≤ 100 :=
  (available_within_capacity.2 emptyStore 0 freshArgs freshLimits initialResponse rfl
    (by decide) ⟨"a", 10, 100, 100⟩ (by decide)).2.2

/-- The reply of the second loop in exact arithmetic: each field against the
values of the limiters and the initial value of the fold. -/
theorem reply_exact {store store1 : Store} {now : Int} {args : List LimitArg}
    {limits : List LimitRequest} {r1 r : LimitResponse}
    (hE : evaluateLoop store now args initialResponse = Except.ok (limits, r1))
    (hC : commitLoop now limits r1 store = some (r, store1))
    (hLL : ∀ l ∈ limits, isLL l.capacity) :
    r.allowed = r1.allowed ∧
    ((∀ l ∈ limits, r.remaining ≤ availableAfter r.allowed l / l.cost) ∧
      (r.remaining = LL_MAX ∨
        ∃ l ∈ limits, r.remaining = availableAfter r.allowed l / l.cost)) ∧
    ((∀ l ∈ limits, max 0 (l.cost - availableAfter r.allowed l) ≤ r.ready_after) ∧
      (r.ready_after = 0 ∨
        ∃ l ∈ limits, r.ready_after = max 0 (l.cost - availableAfter r.allowed l))) ∧
    ((∀ l ∈ limits, l.capacity - availableAfter r.allowed l ≤ r.reset_after) ∧
      (r.reset_after = 0 ∨
        ∃ l ∈ limits, r.reset_after = l.capacity - availableAfter r.allowed l)) := by
  obtain ⟨_, e1, e2, e3, _⟩ := evaluateLoop_ok hE
  have hx := limits_exact hE hLL
  have hr := commitLoop_response hC
  have hal : r.allowed = r1.allowed := by rw [hr, foldl_aggregate_allowed]
  obtain ⟨_, m2, m3⟩ := foldl_aggregate_remaining limits r1
  obtain ⟨_, y2, y3⟩ := foldl_aggregate_ready_after limits r1
  obtain ⟨_, z2, z3⟩ := foldl_aggregate_reset_after limits r1
  rw [← hr] at m2 m3 y2 y3 z2 z3
  rw [e1] at m3
  rw [e2] at y3
  rw [e3] at z3
  rw [hal]
  refine ⟨rfl, ⟨?_, ?_⟩, ⟨?_, ?_⟩, ⟨?_, ?_⟩⟩
  · intro l hl
    obtain ⟨_, _, _, _, _, q, _, _⟩ := hx l hl
    rw [← q]; exact m2 l hl
  · rcases m3 with m3 | ⟨l, hl, e⟩
    · exact Or.inl m3
    · obtain ⟨_, _, _, _, _, q, _, _⟩ := hx l hl
      exact Or.inr ⟨l, hl, by rw [e, q]⟩
  · intro l hl
    obtain ⟨_, _, _, _, _, _, q, _⟩ := hx l hl
    rw [← q]; exact y2 l hl
  · rcases y3 with y3 | ⟨l, hl, e⟩
    · exact Or.inl y3
    · obtain ⟨_, _, _, _, _, _, q, _⟩ := hx l hl
      exact Or.inr ⟨l, hl, by rw [e, q]⟩
  · intro l hl
    obtain ⟨_, _, _, _, _, _, _, q⟩ := hx l hl
    rw [← q]; exact z2 l hl
  · rcases z3 with z3 | ⟨l, hl, e⟩
    · exact Or.inl z3
    · obtain ⟨_, _, _, _, _, _, _, q⟩ := hx l hl
      exact Or.inr ⟨l, hl, by rw [e, q]⟩

/-- For a non-empty batch the minimum of the fold is attained at a limiter. -/
theorem reply_remaining_attained {store store1 : Store} {now : Int} {args : List LimitArg}
    {limits : List LimitRequest} {r1 r : LimitResponse}
    (hE : evaluateLoop store now args initialResponse = Except.ok (limits, r1))
    (hC : commitLoop now limits r1 store = some (r, store1))
    (hne : limits ≠ [])
    (hLL : ∀ l ∈ limits, isLL l.capacity) :
    ∃ l ∈ limits, r.remaining = availableAfter r.allowed l / l.cost := by
  obtain ⟨hal, ⟨m2, m3⟩, _, _⟩ := reply_exact hE hC hLL
  rcases m3 with m3 | m3
  · obtain ⟨l0, hl0⟩ := List.exists_mem_of_ne_nil limits hne
    refine ⟨l0, hl0, ?_⟩
    obtain ⟨_, _, _, b0, b1, _⟩ := limits_exact hE hLL l0 hl0
    rw [← hal] at b0 b1
    have h1 := m2 l0 hl0
    have h2 : availableAfter r.allowed l0 / l0.cost ≤ availableAfter r.allowed l0 :=
      Int.ediv_le_self _ b0
    have h3 := (hLL l0 hl0).2
    omega
  · exact m3

theorem reply_costs_pos {store store1 : Store} {now : Int} {args : List LimitArg}
    {limits : List LimitRequest} {r1 r : LimitResponse}
    (hE : evaluateLoop store now args initialResponse = Except.ok (limits, r1))
    (hC : commitLoop now limits r1 store = some (r, store1)) :
    ∀ l ∈ limits, 0 < l.cost := by
  obtain ⟨hf, _⟩ := evaluateLoop_ok hE
  obtain ⟨_, hv⟩ := forall₂_readLimit_mem hf
  intro l hl
  have := commitLoop_cost_ne hC l hl
  have := (hv l hl).1
  omega

/-- C5: when the call replies on a non-empty batch (every cost is then `> 0`),
`remaining` is the minimum over the limiters of `floor(available_after / cost)`,
`ready_after` the maximum of `max(0, cost - available_after)` and `reset_after`
the maximum of `capacity - available_after`: each is attained at a limiter of
the batch and bounds the value of every limiter, so the initial values of the
fold do not show. -/
theorem reply_is_worst_case (store store1 : Store) (now : Int) (args : List LimitArg)
    (limits : List LimitRequest) (r1 r : LimitResponse)
    (hE : evaluateLoop store now args initialResponse = Except.ok (limits, r1))
    (hR : RateLimitImpl store now args = Outcome.reply r store1)
    (hne : limits ≠ [])
    (hLL : ∀ l ∈ limits, isLL l.capacity) :
    (∀ l ∈ limits, 0 < l.cost) ∧
    ((∃ l ∈ limits, r.remaining = availableAfter r.allowed l / l.cost) ∧
      ∀ l ∈ limits, r.remaining ≤ availableAfter r.allowed l / l.cost) ∧
    ((∃ l ∈ limits, r.ready_after = max 0 (l.cost - availableAfter r.allowed l)) ∧
      ∀ l ∈ limits, max 0 (l.cost - availableAfter r.allowed l) ≤ r.ready_after) ∧
    ((∃ l ∈ limits, r.reset_after = l.capacity - availableAfter r.allowed l) ∧
      ∀ l ∈ limits, l.capacity - availableAfter r.allowed l ≤ r.reset_after) := by
  have hC := RateLimitImpl_reply hE hR
  obtain ⟨hal, ⟨m2, _⟩, ⟨y2, y3⟩, ⟨z2, z3⟩⟩ := reply_exact hE hC hLL
  obtain ⟨l0, hl0⟩ := List.exists_mem_of_ne_nil limits hne
  obtain ⟨_, _, _, _, b1, _⟩ := limits_exact hE hLL l0 hl0
  rw [← hal] at b1
  refine ⟨reply_costs_pos hE hC, ⟨reply_remaining_attained hE hC hne hLL, m2⟩,
    ⟨?_, y2⟩, ⟨?_, z2⟩⟩
  · rcases y3 with y3 | y3
    · have h1 := y2 l0 hl0
      exact ⟨l0, hl0, by omega⟩
    · exact y3
  · rcases z3 with z3 | z3
    · have h1 := z2 l0 hl0
      exact ⟨l0, hl0, by omega⟩
    · exact z3

theorem reply_is_worst_case_witness :
    evaluateLoop scenarioStore 0 scenarioArgs initialResponse
        = Except.ok (scenarioLimits, ⟨false, LL_MAX, 0, 0⟩) ∧
      RateLimitImpl scenarioStore 0 scenarioArgs
        = Outcome.reply ⟨false, 0, 5, 95⟩ scenarioStoreAfter ∧
      (∃ l ∈ scenarioLimits, (0 : Int) = availableAfter false l / l.cost) ∧
      (∃ l ∈ scenarioLimits, (5 : Int) = max 0 (l.cost - availableAfter false l)) ∧
      (∃ l ∈ scenarioLimits, (95 : Int) = l.capacity - availableAfter false l) :=
  have h := reply_is_worst_case scenarioStore scenarioStoreAfter 0 scenarioArgs
    scenarioLimits ⟨false, LL_MAX, 0, 0⟩ ⟨false, 0, 5, 95⟩ rfl rfl (by decide) (by decide)
  ⟨rfl, rfl, h.2.1.1, h.2.2.1.1, h.2.2.2.1⟩

/-- C6, as stated, fails: at `now = LL_MAX` a limiter of cost 1 and capacity 1
on a key that does not exist is allowed, and the `reset_at` stored is `LL_MIN`,
not `now + cost`, which is not a value of `ll_t`. -/
theorem fresh_key_reset_at_overflows :
    (emptyStore "a").value = KeyValue.empty ∧
      RateLimitImpl emptyStore LL_MAX [⟨"a", some 1, some 1⟩]
        = Outcome.reply ⟨true, 0, 1, 1⟩ overflowStoreAfter ∧
      (overflowStoreAfter "a").value = KeyValue.string (some LL_MIN) ∧
      LL_MIN ≠ LL_MAX + 1 :=
  ⟨rfl, rfl, rfl, by decide⟩

/-- C6, amended: for every single-limiter batch on a key that does not exist,
with `0 < cost <= capacity` and every `now` such that `now + cost` fits `ll_t`,
the call is allowed, replies `remaining = floor((capacity - cost) / cost)`,
`ready_after = max(0, 2 * cost - capacity)` and `reset_after = cost`, and stores
`reset_at = now + cost` with a time to live of `cost / 1000000 + 1`. -/
theorem fresh_key_is_full_bucket (store : Store) (now : Int) (key : String)
    (cost capacity : Int)
    (hk : (store key).value = KeyValue.empty) (h0 : 0 < cost) (h1 : cost ≤ capacity)
    (hLL : isLL capacity) (hNow : isLL (now + cost)) :
    RateLimitImpl store now [⟨key, some cost, some capacity⟩] =
      Outcome.reply ⟨true, (capacity - cost) / cost, max 0 (2 * cost - capacity), cost⟩
        (SetExpire (StringSet store key (now + cost)) key (cost / 1000000 + 1)) := by
  have hE : evaluateLoop store now [⟨key, some cost, some capacity⟩] initialResponse =
      Except.ok ([⟨key, cost, capacity, capacity⟩], initialResponse) := by
    have n1 : ¬ cost < 0 := by omega
    have n2 : ¬ capacity < 0 := by omega
    have n3 : ¬ cost > capacity := by omega
    have n4 : ¬ capacity < cost := by omega
    simp [evaluateLoop, readLimit, hk, deriveAvailable, n1, n2, n3, n4]
  refine RateLimitImpl_of_loops hE ?_
  obtain ⟨hd, b0, b1, q1, q2, q3⟩ :=
    @limit_exact true ⟨key, cost, capacity, capacity⟩
      (by simp; omega) h1 (by simp; omega) (le_refl _) hLL.2 (fun _ => h1)
  have ha : availableAfter true ⟨key, cost, capacity, capacity⟩ = capacity - cost := rfl
  rw [ha] at hd b0 b1 q1 q2 q3
  simp only at hd b0 b1 q1 q2 q3
  rw [hd] at q1 q2 q3
  have hi : initialResponse.allowed = true := rfl
  rw [commitLoop_cons, if_neg (by simp; omega)]
  simp only [hi, hd, commitLoop, Option.some.injEq, Prod.mk.injEq]
  have hq : (capacity - cost) / cost ≤ capacity - cost := Int.ediv_le_self _ b0
  have hcap := hLL.2
  have t0 : Int.tdiv cost 1000000 = cost / 1000000 :=
    Int.tdiv_eq_ediv (by omega) (by omega)
  have t1 : add64 (Int.tdiv cost 1000000) 1 = cost / 1000000 + 1 := by
    rw [t0]
    unfold LL_MAX at hcap
    unfold add64 wrap64
    omega
  constructor
  · unfold aggregate
    simp only [hi, hd, q1, q2, q3]
    have i1 : initialResponse.remaining = LL_MAX := rfl
    have i2 : initialResponse.ready_after = 0 := rfl
    have i3 : initialResponse.reset_after = 0 := rfl
    rw [i1, i2, i3]
    have e1 : min LL_MAX ((capacity - cost) / cost) = (capacity - cost) / cost := by omega
    have e2 : max 0 (max 0 (cost - (capacity - cost))) = max 0 (2 * cost - capacity) := by
      omega
    have e3 : max 0 (capacity - (capacity - cost)) = cost := by omega
    rw [e1, e2, e3]
  · have e4 : capacity - (capacity - cost) = cost := by omega
    have e5 : add64 now cost = now + cost := wrap64_of_isLL hNow
    rw [q3, e4, e5, t1]

theorem fresh_key_is_full_bucket_witness :
    (emptyStore "a").value = KeyValue.empty ∧
      RateLimitImpl emptyStore 0 [⟨"a", some 10, some 100⟩] =
        Outcome.reply ⟨true, 9, 0, 10⟩ (SetExpire (StringSet emptyStore "a" 10) "a" 1) :=
  ⟨rfl, fresh_key_is_full_bucket emptyStore 0 "a" 10 100 rfl (by decide) (by decide)
    (by decide) (by decide)⟩

theorem readLimit_other_store {store store2 : Store} {now now2 : Int} {a : LimitArg}
    {l : LimitRequest} {x : Int} (h : readLimit store now a = Except.ok l)
    (hx : deriveAvailable now2 l.capacity (store2 l.key_handle).value = Except.ok x) :
    readLimit store2 now2 a = Except.ok { l with available := x } := by
  obtain ⟨e, c0, c1, _⟩ := readLimit_ok h
  subst e
  have n1 : ¬ l.cost < 0 := by omega
  have n3 : ¬ l.cost > l.capacity := by omega
  have n2 : ¬ l.capacity < 0 := by omega
  simp only [readLimit, n1, n2, n3, if_false, hx]

theorem forall₂_readLimit_other_store {store : Store} (store2 : Store) {now : Int}
    (now2 : Int) {args : List LimitArg} {limits : List LimitRequest} (f : LimitRequest → Int)
    (h : List.Forall₂ (fun a l => readLimit store now a = Except.ok l) args limits)
    (hx : ∀ l ∈ limits,
      deriveAvailable now2 l.capacity (store2 l.key_handle).value = Except.ok (f l)) :
    List.Forall₂ (fun a l => readLimit store2 now2 a = Except.ok l) args
      (limits.map fun l => { l with available := f l }) := by
  induction h with
  | nil => exact List.Forall₂.nil
  | @cons a l _ _ hr _ ih =>
    rw [List.map_cons]
    refine List.Forall₂.cons ?_ ?_
    · exact readLimit_other_store hr (hx l (List.mem_cons_self _ _))
    · exact ih (fun l1 h1 => hx l1 (List.mem_cons_of_mem _ h1))

theorem evaluateLoop_response_unique {store store2 : Store} {now now2 : Int}
    {args args2 : List LimitArg} {limits : List LimitRequest} {r r1 r2 : LimitResponse}
    (h1 : evaluateLoop store now args r = Except.ok (limits, r1))
    (h2 : evaluateLoop store2 now2 args2 r = Except.ok (limits, r2)) : r1 = r2 := by
  obtain ⟨_, a1, a2, a3, a4⟩ := evaluateLoop_ok h1
  obtain ⟨_, b1, b2, b3, b4⟩ := evaluateLoop_ok h2
  obtain ⟨x1, x2, x3, x4⟩ := r1
  obtain ⟨y1, y2, y3, y4⟩ := r2
  simp only at a1 a2 a3 a4 b1 b2 b3 b4
  have : x1 = y1 := by
    rw [Bool.eq_iff_iff, a4, b4]
  subst this
  rw [a1, a2, a3, ← b1, ← b2, ← b3]

theorem map_available_self (limits : List LimitRequest) :
    (limits.map fun l => { l with available := l.available }) = limits := by
  induction limits with
  | nil => rfl
  | cons l rest ih => rw [List.map_cons, ih]

/-- C7, as stated, fails: on `sharedKeyStore`, where two limiters name the key
`k` with capacities 100 and 50, the denied call replies `reset_after = 60` and
the same call repeated at the same `now` replies `reset_after = 50`. -/
theorem denied_shared_key_second_reply_differs :
    RateLimitImpl sharedKeyStore 0 sharedKeyArgs
        = Outcome.reply ⟨false, 0, 10, 60⟩ sharedKeyStoreAfter ∧
      RateLimitImpl sharedKeyStoreAfter 0 sharedKeyArgs
        = Outcome.reply ⟨false, 0, 10, 50⟩ sharedKeyStoreAfter2 ∧
      (⟨false, 0, 10, 60⟩ : LimitResponse) ≠ ⟨false, 0, 10, 50⟩ :=
  ⟨rfl, rfl, by decide⟩

/-- C7, amended: for every keyspace, every `now` and every denied batch in
which the limiters that name the same key have the same capacity (so for every
denied batch with pairwise distinct keys), the same call made a second time at
the same `now` on the keyspace the first call left is denied again, returns the
same reply, and leaves the keyspace (value and time to live of every key) as
the first call left it. -/
theorem denied_call_is_idempotent (store store1 : Store) (now : Int) (args : List LimitArg)
    (limits : List LimitRequest) (r1 r : LimitResponse)
    (hE : evaluateLoop store now args initialResponse = Except.ok (limits, r1))
    (hR : RateLimitImpl store now args = Outcome.reply r store1)
    (hDen : r.allowed = false)
    (hCap : ∀ l ∈ limits, ∀ l1 ∈ limits,
      l.key_handle = l1.key_handle → l.capacity = l1.capacity)
    (hLL : ∀ l ∈ limits, isLL l.capacity) :
    RateLimitImpl store1 now args = Outcome.reply r store1 := by
  have hC := RateLimitImpl_reply hE hR
  obtain ⟨hf, _, _, _, ha⟩ := evaluateLoop_ok hE
  have hr1 : r1.allowed = false := by
    rw [← hDen, commitLoop_response hC, foldl_aggregate_allowed]
  have hden : ∃ l ∈ limits, l.available < l.cost := by
    by_contra hcon
    have : r1.allowed = true := ha.2 ⟨rfl, fun l hl => by
      by_contra hlt
      exact hcon ⟨l, hl, by omega⟩⟩
    rw [hr1] at this
    exact absurd this (by decide)
  have hkeep := (denied_keeps_available_of_commit hE hC hden hCap hLL)
  have hf2 := forall₂_readLimit_other_store store1 now
    (fun l => l.available) hf hkeep
  rw [map_available_self] at hf2
  obtain ⟨r2, hE2⟩ := evaluateLoop_of_forall₂ initialResponse hf2
  have hr2 : r2 = r1 := evaluateLoop_response_unique hE2 hE
  subst hr2
  obtain ⟨r3, store2, hC2⟩ := commitLoop_some now r2 store1 (commitLoop_cost_ne hC)
  have hr3 : r3 = r := by rw [commitLoop_response hC2, commitLoop_response hC]
  subst hr3
  have hs : store2 = store1 := by
    funext k
    by_cases hk : ∃ l ∈ limits, l.key_handle = k
    · exact (commitLoop_store_agree rfl hC hC2 k (Or.inl hk)).symm
    · exact (commitLoop_store hC2 k).1 (fun l hl e => hk ⟨l, hl, e⟩)
  rw [hs] at hC2
  exact RateLimitImpl_of_loops hE2 hC2

theorem denied_call_is_idempotent_witness :
    evaluateLoop scenarioStore 0 scenarioArgs initialResponse
        = Except.ok (scenarioLimits, ⟨false, LL_MAX, 0, 0⟩) ∧
      RateLimitImpl scenarioStore 0 scenarioArgs
        = Outcome.reply ⟨false, 0, 5, 95⟩ scenarioStoreAfter ∧
      RateLimitImpl scenarioStoreAfter 0 scenarioArgs
        = Outcome.reply ⟨false, 0, 5, 95⟩ scenarioStoreAfter :=
  ⟨rfl, rfl,
    denied_call_is_idempotent scenarioStore scenarioStoreAfter 0 scenarioArgs
      scenarioLimits ⟨false, LL_MAX, 0, 0⟩ ⟨false, 0, 5, 95⟩ rfl rfl rfl (by decide)
      (by decide)⟩

/-- The availability a later call derives for each limiter of a batch with
pairwise distinct keys, from the keyspace the call left. -/
theorem available_after_call {store store1 : Store} {now : Int} {args : List LimitArg}
    {limits : List LimitRequest} {r1 r : LimitResponse}
    (hE : evaluateLoop store now args initialResponse = Except.ok (limits, r1))
    (hC : commitLoop now limits r1 store = some (r, store1))
    (hKeys : (limits.map LimitRequest.key_handle).Nodup)
    (hLL : ∀ l ∈ limits, isLL l.capacity)
    (d : Int) (hd : 0 ≤ d) :
    ∀ l ∈ limits, availableAfter r.allowed l + d ≤ LL_MAX →
      deriveAvailable (now + d) l.capacity (store1 l.key_handle).value =
        Except.ok (min l.capacity (availableAfter r.allowed l + d)) := by
  intro l hl hx
  have hal : r.allowed = r1.allowed := by
    rw [commitLoop_response hC, foldl_aggregate_allowed]
  rw [hal] at hx ⊢
  obtain ⟨_, _, hdeb, b0, b1, _⟩ := limits_exact hE hLL l hl
  rw [commitLoop_written hC hKeys l hl, writtenEntry, hdeb]
  exact deriveAvailable_written_later b0 b1 hd hx

/-- The call that follows a replying call on a batch with pairwise distinct
keys: it replies, and its first loop fills the same requests with the
availability derived at the later time. -/
theorem next_call {store store1 : Store} {now : Int} {args : List LimitArg}
    {limits : List LimitRequest} {r1 r : LimitResponse}
    (hE : evaluateLoop store now args initialResponse = Except.ok (limits, r1))
    (hC : commitLoop now limits r1 store = some (r, store1))
    (hKeys : (limits.map LimitRequest.key_handle).Nodup)
    (hLL : ∀ l ∈ limits, isLL l.capacity)
    (d : Int) (hd : 0 ≤ d)
    (hx : ∀ l ∈ limits, availableAfter r.allowed l + d ≤ LL_MAX) :
    ∃ r3 r2 store2,
      evaluateLoop store1 (now + d) args initialResponse =
        Except.ok (limits.map (fun l =>
          { l with available := min l.capacity (availableAfter r.allowed l + d) }), r3) ∧
      commitLoop (now + d) (limits.map (fun l =>
          { l with available := min l.capacity (availableAfter r.allowed l + d) })) r3 store1
        = some (r2, store2) ∧
      RateLimitImpl store1 (now + d) args = Outcome.reply r2 store2 ∧
      (r2.allowed = true ↔ ∀ l ∈ limits, l.cost ≤ availableAfter r.allowed l + d) := by
  obtain ⟨hf, _⟩ := evaluateLoop_ok hE
  obtain ⟨_, hv⟩ := forall₂_readLimit_mem hf
  have hav := available_after_call hE hC hKeys hLL d hd
  have hf2 := forall₂_readLimit_other_store store1 (now + d)
    (fun l => min l.capacity (availableAfter r.allowed l + d)) hf
    (fun l hl => hav l hl (hx l hl))
  obtain ⟨r3, hE2⟩ := evaluateLoop_of_forall₂ initialResponse hf2
  have hcost : ∀ l2 ∈ limits.map (fun l : LimitRequest =>
      ({ l with available := min l.capacity (availableAfter r.allowed l + d) } : LimitRequest)),
      l2.cost ≠ 0 := by
    intro l2 hl2
    obtain ⟨l, hl, e⟩ := List.mem_map.1 hl2
    rw [← e]
    exact commitLoop_cost_ne hC l hl
  obtain ⟨r2, store2, hC2⟩ := commitLoop_some (now + d) r3 store1 hcost
  refine ⟨r3, r2, store2, hE2, hC2, RateLimitImpl_of_loops hE2 hC2, ?_⟩
  obtain ⟨_, _, _, _, ha2⟩ := evaluateLoop_ok hE2
  rw [commitLoop_response hC2, foldl_aggregate_allowed, ha2]
  simp only [List.mem_map, forall_exists_index, and_imp, forall_apply_eq_imp_iff₂]
  constructor
  · intro h l hl
    have := h.2 l hl
    exact le_trans this (min_le_right _ _)
  · intro h
    refine ⟨rfl, fun l hl => ?_⟩
    have := h l hl
    have := (hv l hl).2.1
    exact le_min (by assumption) (by assumption)

theorem ediv_facts (a c : Int) (hc : 0 < c) (ha : 0 ≤ a) :
    (a / c = 0 → a < c) ∧ (1 ≤ a / c → c ≤ a) ∧ (a - c) / c = a / c - 1 ∧ 0 ≤ a / c := by
  have h1 := Int.emod_add_ediv a c
  have h2 := Int.emod_lt_of_pos a hc
  have h3 := Int.emod_nonneg a (ne_of_gt hc)
  refine ⟨?_, ?_, ?_, Int.ediv_nonneg ha (le_of_lt hc)⟩
  · intro h
    rw [h] at h1
    omega
  · intro h
    have : c ≤ c * (a / c) := by nlinarith
    omega
  · have := Int.add_mul_ediv_right a (-1) (ne_of_gt hc)
    have e : a + -1 * c = a - c := by ring
    rw [e] at this
    omega

theorem repeatCalls_succ_reply {store store1 : Store} {now : Int} {args : List LimitArg}
    {r : LimitResponse} {n : Nat} {replies : List LimitResponse}
    (hR : RateLimitImpl store now args = Outcome.reply r store1)
    (hn : repeatCalls now args n store1 = some replies) :
    repeatCalls now args (n + 1) store = some (r :: replies) := by
  simp only [repeatCalls, hR, hn]

theorem repeat_after_reply {now : Int} {args : List LimitArg} :
    ∀ (n : Nat) (store store1 : Store) (limits : List LimitRequest) (r1 r : LimitResponse),
      evaluateLoop store now args initialResponse = Except.ok (limits, r1) →
      commitLoop now limits r1 store = some (r, store1) →
      limits ≠ [] →
      (limits.map LimitRequest.key_handle).Nodup →
      (∀ l ∈ limits, isLL l.capacity) →
      r.remaining = (n : Int) →
      ∃ replies, repeatCalls now args (n + 1) store1 = some replies ∧
        replies.map LimitResponse.allowed = List.replicate n true ++ [false] := by
  intro n
  induction n with
  | zero =>
    intro store store1 limits r1 r hE hC hne hKeys hLL hn
    have hb : ∀ l ∈ limits, availableAfter r.allowed l + 0 ≤ LL_MAX := by
      intro l hl
      obtain ⟨hal, _⟩ := reply_exact hE hC hLL
      obtain ⟨_, _, _, _, b1, _⟩ := limits_exact hE hLL l hl
      rw [← hal] at b1
      have := (hLL l hl).2
      omega
    obtain ⟨r3, r2, store2, _, _, hR2, ha⟩ := next_call hE hC hKeys hLL 0 (le_refl _) hb
    rw [add_zero] at hR2
    refine ⟨[r2], repeatCalls_succ_reply hR2 rfl, ?_⟩
    have hden : r2.allowed = false := by
      cases h : r2.allowed with
      | false => rfl
      | true =>
        obtain ⟨l, hl, e⟩ := reply_remaining_attained hE hC hne hLL
        have h1 := (ha.1 h) l hl
        obtain ⟨hal, _⟩ := reply_exact hE hC hLL
        obtain ⟨_, _, _, b0, _⟩ := limits_exact hE hLL l hl
        rw [← hal] at b0
        have hpos := reply_costs_pos hE hC l hl
        have := (ediv_facts _ _ hpos b0).1 (by rw [← e, hn]; rfl)
        omega
    simp [hden]
  | succ n ih =>
    intro store store1 limits r1 r hE hC hne hKeys hLL hn
    obtain ⟨hal, ⟨m2, _⟩, _, _⟩ := reply_exact hE hC hLL
    have hx := limits_exact hE hLL
    rw [← hal] at hx
    have hpos := reply_costs_pos hE hC
    have hb : ∀ l ∈ limits, availableAfter r.allowed l + 0 ≤ LL_MAX := by
      intro l hl
      obtain ⟨_, _, _, _, b1, _⟩ := hx l hl
      have := (hLL l hl).2
      omega
    obtain ⟨r3, r2, store2, hE2, hC2, hR2, ha⟩ :=
      next_call hE hC hKeys hLL 0 (le_refl _) hb
    rw [add_zero] at hR2 hE2 hC2
    have hge : ∀ l ∈ limits, l.cost ≤ availableAfter r.allowed l := by
      intro l hl
      obtain ⟨_, _, _, b0, _⟩ := hx l hl
      have h1 := m2 l hl
      rw [hn] at h1
      exact (ediv_facts _ _ (hpos l hl) b0).2.1 (by push_cast at h1; omega)
    have hadm : r2.allowed = true := ha.2 (fun l hl => by have := hge l hl; omega)
    have hne2 : (limits.map fun l : LimitRequest =>
        ({ l with available := min l.capacity (availableAfter r.allowed l + 0) } :
          LimitRequest)) ≠ [] := by
      intro h
      exact hne (List.map_eq_nil_iff.1 h)
    have hKeys2 : ((limits.map fun l : LimitRequest =>
        ({ l with available := min l.capacity (availableAfter r.allowed l + 0) } :
          LimitRequest)).map LimitRequest.key_handle).Nodup := by
      rw [List.map_map]
      exact hKeys
    have hLL2 : ∀ l2 ∈ (limits.map fun l : LimitRequest =>
        ({ l with available := min l.capacity (availableAfter r.allowed l + 0) } :
          LimitRequest)), isLL l2.capacity := by
      intro l2 hl2
      obtain ⟨l, hl, e⟩ := List.mem_map.1 hl2
      rw [← e]
      exact hLL l hl
    have hrem : r2.remaining = (n : Int) := by
      obtain ⟨_, ⟨k2, _⟩, _, _⟩ := reply_exact hE2 hC2 hLL2
      obtain ⟨l2, hl2, e2⟩ := reply_remaining_attained hE2 hC2 hne2 hLL2
      obtain ⟨l1, hl1, e1⟩ := reply_remaining_attained hE hC hne hLL
      rw [hadm] at k2 e2
      have key : ∀ l ∈ limits,
          availableAfter true
            ({ l with available := min l.capacity (availableAfter r.allowed l + 0) } :
              LimitRequest) / l.cost = availableAfter r.allowed l / l.cost - 1 := by
        intro l hl
        obtain ⟨_, _, _, b0, b1, _⟩ := hx l hl
        have e : availableAfter true
            ({ l with available := min l.capacity (availableAfter r.allowed l + 0) } :
              LimitRequest) = availableAfter r.allowed l - l.cost := by
          have e0 : availableAfter true
              ({ l with available := min l.capacity (availableAfter r.allowed l + 0) } :
                LimitRequest) = min l.capacity (availableAfter r.allowed l + 0) - l.cost := rfl
          rw [e0]
          omega
        rw [e]
        exact (ediv_facts _ _ (hpos l hl) b0).2.2.1
      have up := k2 _ (List.mem_map_of_mem _ hl1)
      simp only at up
      rw [key l1 hl1, ← e1, hn] at up
      obtain ⟨l0, hl0, e0⟩ := List.mem_map.1 hl2
      rw [← e0] at e2
      simp only at e2
      rw [key l0 hl0] at e2
      have lo := m2 l0 hl0
      rw [hn] at lo
      push_cast at up lo
      omega
    obtain ⟨replies, hrep, hmap⟩ := ih store1 store2 _ r3 r2 hE2 hC2 hne2 hKeys2 hLL2 hrem
    refine ⟨r2 :: replies, repeatCalls_succ_reply hR2 hrep, ?_⟩
    rw [List.map_cons, hmap, hadm, List.replicate_succ, List.cons_append]

/-- C8: after a replying call at `now` on a non-empty batch with pairwise
distinct keys (every cost is then `> 0`) whose reply has `remaining = n`, the
same batch repeated at the same `now`, each call on the keyspace the call
before left, replies every time; it is admitted the first `n` times and denied
the `n + 1`-th time. -/
theorem remaining_counts_admitted_repeats (store store1 : Store) (now : Int)
    (args : List LimitArg) (limits : List LimitRequest) (r1 r : LimitResponse)
    (hE : evaluateLoop store now args initialResponse = Except.ok (limits, r1))
    (hR : RateLimitImpl store now args = Outcome.reply r store1)
    (hne : limits ≠ [])
    (hKeys : (limits.map LimitRequest.key_handle).Nodup)
    (hLL : ∀ l ∈ limits, isLL l.capacity) :
    0 ≤ r.remaining ∧
      ∃ replies, repeatCalls now args (r.remaining.toNat + 1) store1 = some replies ∧
        replies.map LimitResponse.allowed =
          List.replicate r.remaining.toNat true ++ [false] := by
  have hC := RateLimitImpl_reply hE hR
  have h0 : 0 ≤ r.remaining := by
    obtain ⟨l, hl, e⟩ := reply_remaining_attained hE hC hne hLL
    obtain ⟨hal, _⟩ := reply_exact hE hC hLL
    obtain ⟨_, _, _, b0, _⟩ := limits_exact hE hLL l hl
    rw [← hal] at b0
    rw [e]
    exact (ediv_facts _ _ (reply_costs_pos hE hC l hl) b0).2.2.2
  exact ⟨h0, repeat_after_reply r.remaining.toNat store store1 limits r1 r hE hC hne hKeys
    hLL (Int.toNat_of_nonneg h0).symm⟩

theorem remaining_counts_admitted_repeats_witness :
    evaluateLoop emptyStore 0 freshArgs initialResponse
        = Except.ok (freshLimits, initialResponse) ∧
      RateLimitImpl emptyStore 0 freshArgs = Outcome.reply ⟨true, 9, 0, 10⟩ freshStoreAfter ∧
      ∃ replies, repeatCalls 0 freshArgs 10 freshStoreAfter = some replies ∧
        replies.map LimitResponse.allowed = List.replicate 9 true ++ [false] :=
  ⟨rfl, rfl,
    (remaining_counts_admitted_repeats emptyStore freshStoreAfter 0 freshArgs
      freshLimits initialResponse ⟨true, 9, 0, 10⟩ rfl rfl (by decide) (by decide)
      (by decide)).2⟩

/-- C9: after a replying call at `now` on a batch with pairwise distinct keys,
for every `d >= 0` such that `available_after + d` fits `ll_t` for each limiter
(the difference `now + d + capacity - reset_at` that the later call evaluates
is then exact), the same batch issued at `now + d` on the keyspace the call
left replies, and it is admitted if and only if `d >= ready_after`. -/
theorem ready_after_is_exact_wait (store store1 : Store) (now : Int) (args : List LimitArg)
    (limits : List LimitRequest) (r1 r : LimitResponse)
    (hE : evaluateLoop store now args initialResponse = Except.ok (limits, r1))
    (hR : RateLimitImpl store now args = Outcome.reply r store1)
    (hKeys : (limits.map LimitRequest.key_handle).Nodup)
    (hLL : ∀ l ∈ limits, isLL l.capacity)
    (d : Int) (hd : 0 ≤ d)
    (hExact : ∀ l ∈ limits, availableAfter r.allowed l + d ≤ LL_MAX) :
    ∃ r2 store2, RateLimitImpl store1 (now + d) args = Outcome.reply r2 store2 ∧
      (r2.allowed = true ↔ r.ready_after ≤ d) := by
  have hC := RateLimitImpl_reply hE hR
  obtain ⟨_, r2, store2, _, _, hR2, ha⟩ := next_call hE hC hKeys hLL d hd hExact
  refine ⟨r2, store2, hR2, ?_⟩
  rw [ha]
  obtain ⟨_, _, ⟨y2, y3⟩, _⟩ := reply_exact hE hC hLL
  constructor
  · intro h
    rcases y3 with y3 | ⟨l, hl, e⟩
    · omega
    · have := h l hl
      omega
  · intro h l hl
    have := y2 l hl
    omega

theorem ready_after_is_exact_wait_witness :
    evaluateLoop scenarioStore 0 scenarioArgs initialResponse
        = Except.ok (scenarioLimits, ⟨false, LL_MAX, 0, 0⟩) ∧
      RateLimitImpl scenarioStore 0 scenarioArgs
        = Outcome.reply ⟨false, 0, 5, 95⟩ scenarioStoreAfter ∧
      ∃ r2 store2, RateLimitImpl scenarioStoreAfter (0 + 5) scenarioArgs
          = Outcome.reply r2 store2 ∧ (r2.allowed = true ↔ (5 : Int) ≤ 5) :=
  ⟨rfl, rfl,
    ready_after_is_exact_wait scenarioStore scenarioStoreAfter 0 scenarioArgs
      scenarioLimits ⟨false, LL_MAX, 0, 0⟩ ⟨false, 0, 5, 95⟩ rfl rfl (by decide)
      (by decide) 5 (by decide) (by decide)⟩

/-- C10, as stated, fails: a fresh limiter of cost 1 and capacity `2^62` called
at `now = 0` leaves `reset_at = 1` and replies `reset_after = 1`; at
`now + d` with `d = LL_MAX >= reset_after` the sum `now + d + capacity` does
not fit `ll_t` and the availability derived is 0, not the capacity
`min(capacity, available_after + d)`. -/
theorem refill_overflows_at_large_delay :
    evaluateLoop emptyStore 0 wideArgs initialResponse
        = Except.ok (wideLimits, initialResponse) ∧
      RateLimitImpl emptyStore 0 wideArgs
        = Outcome.reply ⟨true, 4611686018427387903, 0, 1⟩ wideStoreAfter ∧
      isLL (0 + LL_MAX) ∧ (1 : Int) ≤ LL_MAX ∧
      deriveAvailable (0 + LL_MAX) 4611686018427387904 (wideStoreAfter "a").value
        = Except.ok 0 ∧
      min (4611686018427387904 : Int) (4611686018427387903 + LL_MAX) = 4611686018427387904 :=
  ⟨rfl, rfl, by decide, by decide, rfl, by decide⟩

/-- C10, amended: after a replying call at `now` on a batch with pairwise
distinct keys, for every `d >= 0` such that `available_after + d` fits `ll_t`
for each limiter, the availability of each limiter derived at `now + d` from
the stored `reset_at` is `min(capacity, available_after + d)`, and every
limiter of the batch has its capacity available if and only if
`d >= reset_after`. -/
theorem bucket_refills_until_reset_after (store store1 : Store) (now : Int)
    (args : List LimitArg) (limits : List LimitRequest) (r1 r : LimitResponse)
    (hE : evaluateLoop store now args initialResponse = Except.ok (limits, r1))
    (hR : RateLimitImpl store now args = Outcome.reply r store1)
    (hKeys : (limits.map LimitRequest.key_handle).Nodup)
    (hLL : ∀ l ∈ limits, isLL l.capacity)
    (d : Int) (hd : 0 ≤ d)
    (hExact : ∀ l ∈ limits, availableAfter r.allowed l + d ≤ LL_MAX) :
    (∀ l ∈ limits,
      deriveAvailable (now + d) l.capacity (store1 l.key_handle).value =
        Except.ok (min l.capacity (availableAfter r.allowed l + d))) ∧
    ((∀ l ∈ limits,
      deriveAvailable (now + d) l.capacity (store1 l.key_handle).value =
        Except.ok l.capacity) ↔ r.reset_after ≤ d) := by
  have hC := RateLimitImpl_reply hE hR
  have hav : ∀ l ∈ limits,
      deriveAvailable (now + d) l.capacity (store1 l.key_handle).value =
        Except.ok (min l.capacity (availableAfter r.allowed l + d)) :=
    fun l hl => available_after_call hE hC hKeys hLL d hd l hl (hExact l hl)
  refine ⟨hav, ?_⟩
  obtain ⟨_, _, _, ⟨z2, z3⟩⟩ := reply_exact hE hC hLL
  constructor
  · intro h
    rcases z3 with z3 | ⟨l, hl, e⟩
    · omega
    · have h1 := h l hl
      rw [hav l hl] at h1
      have h2 := Except.ok.inj h1
      omega
  · intro h l hl
    rw [hav l hl]
    have := z2 l hl
    have : min l.capacity (availableAfter r.allowed l + d) = l.capacity := by omega
    rw [this]

theorem bucket_refills_until_reset_after_witness :
    evaluateLoop emptyStore 0 exhaustArgs initialResponse
        = Except.ok (exhaustLimits, initialResponse) ∧
      RateLimitImpl emptyStore 0 exhaustArgs
        = Outcome.reply ⟨true, 0, 100, 100⟩ exhaustStoreAfter ∧
      deriveAvailable (0 + 100) 100 (exhaustStoreAfter "a").value = Except.ok 100 :=
  ⟨rfl, rfl,
    ((bucket_refills_until_reset_after emptyStore exhaustStoreAfter 0 exhaustArgs
      exhaustLimits initialResponse ⟨true, 0, 100, 100⟩ rfl rfl (by decide) (by decide)
      100 (by decide) (by decide)).2.2 (by decide)) ⟨"a", 100, 100, 100⟩ (by decide)⟩



theorem readLimitTrace_shape (store : Store) (i : Nat) (a : LimitArg) :
    readLimitTrace store i a = [] ∨
      readLimitTrace store i a = [Event.validated i, Event.openKey i] ∨
      readLimitTrace store i a = [Event.validated i, Event.openKey i, Event.stringDMA i] := by
  unfold readLimitTrace
  cases a.cost with
  | none => simp
  | some cost =>
    cases a.capacity with
    | none => simp
    | some capacity =>
      simp only
      split_ifs
      · simp
      · simp
      · simp
      · cases (store a.key).value <;> simp

theorem readLimitTrace_of_ok {store : Store} {now : Int} {a : LimitArg} {l : LimitRequest}
    (i : Nat) (h : readLimit store now a = Except.ok l) :
    readLimitTrace store i a = [Event.validated i, Event.openKey i] ∨
      readLimitTrace store i a = [Event.validated i, Event.openKey i, Event.stringDMA i] := by
  obtain ⟨e, c0, c1, _⟩ := readLimit_ok h
  subst e
  have n1 : ¬ l.cost < 0 := by omega
  have n3 : ¬ l.cost > l.capacity := by omega
  have n2 : ¬ l.capacity < 0 := by omega
  simp only [readLimitTrace, n1, n2, n3, if_false]
  cases (store l.key_handle).value <;> simp

theorem evaluateTrace_cons (store : Store) (now : Int) (i : Nat) (a : LimitArg)
    (rest : List LimitArg) :
    evaluateTrace store now i (a :: rest) =
      readLimitTrace store i a ++
        (match readLimit store now a with
          | Except.error _ => []
          | Except.ok _ => evaluateTrace store now (i + 1) rest) := rfl

theorem evaluateTrace_cons_eq (store : Store) (now : Int) (i : Nat) (a : LimitArg)
    (rest : List LimitArg) :
    (evaluateTrace store now i (a :: rest) = readLimitTrace store i a ∧
      ∀ l, readLimit store now a ≠ Except.ok l) ∨
    (evaluateTrace store now i (a :: rest) =
        readLimitTrace store i a ++ evaluateTrace store now (i + 1) rest ∧
      ∃ l, readLimit store now a = Except.ok l) := by
  rw [evaluateTrace_cons]
  cases h : readLimit store now a with
  | error e => left; simp
  | ok l => right; exact ⟨rfl, l, rfl⟩

theorem mem_evaluateTrace {store : Store} {now : Int} :
    ∀ (args : List LimitArg) (i : Nat) (e : Event), e ∈ evaluateTrace store now i args →
      ∃ k, e = Event.validated k ∨ e = Event.openKey k ∨ e = Event.stringDMA k := by
  intro args
  induction args with
  | nil => intro i e h; simp [evaluateTrace] at h
  | cons a rest ih =>
    intro i e h
    have hb : e ∈ readLimitTrace store i a →
        ∃ k, e = Event.validated k ∨ e = Event.openKey k ∨ e = Event.stringDMA k := by
      intro hm
      rcases readLimitTrace_shape store i a with s | s | s <;> rw [s] at hm <;>
        simp at hm
      · rcases hm with hm | hm
        · exact ⟨i, Or.inl hm⟩
        · exact ⟨i, Or.inr (Or.inl hm)⟩
      · rcases hm with hm | hm | hm
        · exact ⟨i, Or.inl hm⟩
        · exact ⟨i, Or.inr (Or.inl hm)⟩
        · exact ⟨i, Or.inr (Or.inr hm)⟩
    rcases evaluateTrace_cons_eq store now i a rest with ⟨q, _⟩ | ⟨q, _⟩
    · rw [q] at h; exact hb h
    · rw [q] at h
      rcases List.mem_append.1 h with h | h
      · exact hb h
      · exact ih (i + 1) e h

theorem validated_mem_evaluateTrace {store : Store} {now : Int} {args : List LimitArg}
    {limits : List LimitRequest}
    (h : List.Forall₂ (fun a l => readLimit store now a = Except.ok l) args limits) :
    ∀ i j : Nat, i ≤ j → j < i + args.length →
      Event.validated j ∈ evaluateTrace store now i args := by
  induction h with
  | nil => intro i j h1 h2; simp at h2; omega
  | @cons a l as _ hr _ ih =>
    intro i j h1 h2
    rcases evaluateTrace_cons_eq store now i a as with ⟨_, q⟩ | ⟨q, _⟩
    · exact absurd hr (q l)
    · rw [q]
      by_cases hij : j = i
      · subst hij
        apply List.mem_append_left
        rcases readLimitTrace_of_ok j hr with s | s <;> rw [s] <;> simp
      · apply List.mem_append_right
        simp only [List.length_cons] at h2
        exact ih (i + 1) j (by omega) (by omega)

theorem access_in_evaluateTrace {store : Store} {now : Int} :
    ∀ (args : List LimitArg) (i : Nat) (pre post : List Event) (e : Event),
      evaluateTrace store now i args = pre ++ e :: post →
      ∀ k, (e = Event.openKey k ∨ e = Event.stringDMA k) →
        i ≤ k ∧ ∀ j, i ≤ j → j ≤ k → Event.validated j ∈ pre := by
  intro args
  induction args with
  | nil =>
    intro i pre post e h
    simp [evaluateTrace] at h
  | cons a rest ih =>
    intro i pre post e h k hk
    have hbody : ∀ c : List Event, readLimitTrace store i a = pre ++ e :: c →
        i ≤ k ∧ ∀ j, i ≤ j → j ≤ k → Event.validated j ∈ pre := by
      intro c hc
      rcases readLimitTrace_shape store i a with s | s | s <;> rw [s] at hc
      · simp at hc
      · rcases pre with _ | ⟨p0, _ | ⟨p1, pre⟩⟩
        · simp at hc
          rcases hk with hk | hk <;> rw [hk] at hc <;> simp at hc
        · simp at hc
          obtain ⟨e0, e1, _⟩ := hc
          rcases hk with hk | hk <;> rw [hk] at e1 <;> simp at e1
          subst e1
          refine ⟨le_refl _, fun j h1 h2 => ?_⟩
          have : j = i := by omega
          subst this
          simp [e0]
        · simp at hc
      · rcases pre with _ | ⟨p0, _ | ⟨p1, _ | ⟨p2, pre⟩⟩⟩
        · simp at hc
          rcases hk with hk | hk <;> rw [hk] at hc <;> simp at hc
        · simp at hc
          obtain ⟨e0, e1, _⟩ := hc
          rcases hk with hk | hk <;> rw [hk] at e1 <;> simp at e1
          subst e1
          refine ⟨le_refl _, fun j h1 h2 => ?_⟩
          have : j = i := by omega
          subst this
          simp [e0]
        · simp at hc
          obtain ⟨e0, _, e2, _⟩ := hc
          rcases hk with hk | hk <;> rw [hk] at e2 <;> simp at e2
          subst e2
          refine ⟨le_refl _, fun j h1 h2 => ?_⟩
          have : j = i := by omega
          subst this
          simp [e0]
        · simp at hc
    rcases evaluateTrace_cons_eq store now i a rest with ⟨q, _⟩ | ⟨q, l, hl⟩
    · rw [q] at h
      exact hbody post h
    · rw [q] at h
      rcases List.append_eq_append_iff.1 h with ⟨a1, h1, h2⟩ | ⟨c1, h1, h2⟩
      · obtain ⟨g1, g2⟩ := ih (i + 1) a1 post e h2 k hk
        refine ⟨by omega, fun j j1 j2 => ?_⟩
        rw [h1]
        by_cases hij : j = i
        · subst hij
          apply List.mem_append_left
          rcases readLimitTrace_of_ok j hl with s | s <;> rw [s] <;> simp
        · exact List.mem_append_right _ (g2 j (by omega) j2)
      · rcases c1 with _ | ⟨x, c2⟩
        · simp only [List.nil_append, List.append_nil] at h1 h2
          obtain ⟨g1, g2⟩ := ih (i + 1) [] post e (by rw [← h2]; rfl) k hk
          refine ⟨by omega, fun j j1 j2 => ?_⟩
          rw [← h1]
          by_cases hij : j = i
          · subst hij
            rcases readLimitTrace_of_ok j hl with s | s <;> rw [s] <;> simp
          · exact absurd (g2 j (by omega) j2) (by simp)
        · simp only [List.cons_append, List.cons.injEq] at h2
          rw [← h2.1] at h1
          exact hbody c2 h1

theorem mem_commitTrace :
    ∀ (limits : List LimitRequest) (i : Nat) (e : Event), e ∈ commitTrace i limits →
      ∃ k, e = Event.stringSet k ∨ e = Event.setExpire k := by
  intro limits
  induction limits with
  | nil => intro i e h; simp [commitTrace] at h
  | cons l rest ih =>
    intro i e h
    unfold commitTrace at h
    split_ifs at h
    · simp at h
    · rcases List.mem_cons.1 h with h | h
      · exact ⟨i, Or.inl h⟩
      · rcases List.mem_cons.1 h with h | h
        · exact ⟨i, Or.inr h⟩
        · exact ih (i + 1) e h

theorem forall₂_mem_left {α β : Type} {R : α → β → Prop} {xs : List α} {ys : List β}
    (h : List.Forall₂ R xs ys) : ∀ x ∈ xs, ∃ y ∈ ys, R x y := by
  induction h with
  | nil => intro x hx; simp at hx
  | @cons a b _ _ hab _ ih =>
    intro x hx
    rcases List.mem_cons.1 hx with e | e
    · subst e; exact ⟨b, List.mem_cons_self _ _, hab⟩
    · obtain ⟨y, hy, hr⟩ := ih x e
      exact ⟨y, List.mem_cons_of_mem _ hy, hr⟩

theorem evaluateLoop_error_of_invalid (store : Store) (now : Int) {args : List LimitArg}
    {a : LimitArg} {cost capacity : Int} (r : LimitResponse)
    (ha : a ∈ args) (hc : a.cost = some cost) (hp : a.capacity = some capacity)
    (hbad : cost < 0 ∨ capacity < 0 ∨ cost > capacity) :
    ∃ e, evaluateLoop store now args r = Except.error e := by
  cases h : evaluateLoop store now args r with
  | error e => exact ⟨e, rfl⟩
  | ok p =>
    obtain ⟨limits, r1⟩ := p
    obtain ⟨hf, _⟩ := evaluateLoop_ok h
    obtain ⟨l, _, hl⟩ := forall₂_mem_left hf a ha
    obtain ⟨e, c0, c1, _⟩ := readLimit_ok hl
    rw [e] at hc hp
    simp only [Option.some.injEq] at hc hp
    omega

theorem RateLimitTrace_of_error {store : Store} {now : Int} {args : List LimitArg} {e : Error}
    (h : evaluateLoop store now args initialResponse = Except.error e) :
    RateLimitTrace store now args = evaluateTrace store now 0 args := by
  unfold RateLimitTrace
  rw [h]
  simp

/-- C11: for every keyspace and every batch in which some limiter has
`cost < 0`, `capacity < 0` or `cost > capacity`, the call ends with an error
reply instead of the array of four values, the keyspace it leaves is the
keyspace it was called on, and no `RedisModule_StringSet` and no
`RedisModule_SetExpire` is among the operations of the call. -/
theorem invalid_limiter_fails_without_write (store : Store) (now : Int) (args : List LimitArg)
    (a : LimitArg) (cost capacity : Int)
    (ha : a ∈ args) (hc : a.cost = some cost) (hp : a.capacity = some capacity)
    (hbad : cost < 0 ∨ capacity < 0 ∨ cost > capacity) :
    (∃ e, RateLimitImpl store now args = Outcome.error e store) ∧
      ∀ ev ∈ RateLimitTrace store now args,
        ∀ k, ev ≠ Event.stringSet k ∧ ev ≠ Event.setExpire k := by
  obtain ⟨e, he⟩ := evaluateLoop_error_of_invalid store now
    initialResponse ha hc hp hbad
  refine ⟨⟨e, by unfold RateLimitImpl; rw [he]⟩, ?_⟩
  intro ev hev k
  rw [RateLimitTrace_of_error he] at hev
  obtain ⟨k0, hk0⟩ := mem_evaluateTrace args 0 ev hev
  rcases hk0 with hk0 | hk0 | hk0 <;> rw [hk0] <;> simp

theorem invalid_limiter_fails_without_write_witness :
    (∃ e, RateLimitImpl scenarioStore 0 invalidSecondArgs = Outcome.error e scenarioStore) ∧
      RateLimitTrace scenarioStore 0 invalidSecondArgs =
        [Event.validated 0, Event.openKey 0, Event.stringDMA 0] :=
  ⟨(invalid_limiter_fails_without_write scenarioStore 0 invalidSecondArgs
    ⟨"b", some (-1), some 100⟩ (-1) 100 (by decide) rfl rfl (by decide)).1, by decide⟩

/-- C13: a limiter of cost 0 passes the validation of lines 72-80 and the
division of line 119 is then reached with a zero divisor: on a keyspace without
the key, the batch of one limiter of cost 0 and capacity 100 is read by the
first loop and the call ends in the division by zero. -/
theorem zero_cost_divides_by_zero :
    readLimit emptyStore 0 ⟨"a", some 0, some 100⟩ = Except.ok ⟨"a", 0, 100, 100⟩ ∧
      evaluateLoop emptyStore 0 zeroCostArgs initialResponse
        = Except.ok ([⟨"a", 0, 100, 100⟩], initialResponse) ∧
      RateLimitImpl emptyStore 0 zeroCostArgs = Outcome.divisionByZero :=
  ⟨rfl, rfl, rfl⟩

/-- C12, as stated, fails: in the call of the two valid limiters of
`scenarioArgs`, the key of the first limiter is opened and read before the
second limiter is validated; and with a first key of the wrong type and a
second limiter of negative cost the reply is the error of the key, not the
error of the validation. -/
theorem first_key_opened_before_second_validation :
    RateLimitTrace scenarioStore 0 scenarioArgs =
        [Event.validated 0] ++ Event.openKey 0 ::
          [Event.stringDMA 0, Event.validated 1, Event.openKey 1, Event.stringDMA 1,
            Event.stringSet 0, Event.setExpire 0, Event.stringSet 1, Event.setExpire 1] ∧
      Event.validated 1 ∉ [Event.validated 0] ∧
      RateLimitImpl wrongTypeStore 0 invalidSecondArgs
        = Outcome.error Error.wrongType wrongTypeStore :=
  ⟨by decide, by decide, rfl⟩

/-- C12, amended: in the sequence of operations of a call, the key of a limiter
is opened and read only after that limiter and every limiter before it in the
batch passed validation, and a key is written or given a time to live only
after every limiter of the batch passed validation. -/
theorem accesses_follow_validation (store : Store) (now : Int) (args : List LimitArg)
    (pre post : List Event) (e : Event)
    (h : RateLimitTrace store now args = pre ++ e :: post) :
    (∀ k, (e = Event.openKey k ∨ e = Event.stringDMA k) →
      ∀ j, j ≤ k → Event.validated j ∈ pre) ∧
    (∀ k, (e = Event.stringSet k ∨ e = Event.setExpire k) →
      ∀ j, j < args.length → Event.validated j ∈ pre) := by
  have hwrite : ∀ (a1 : List Event) (limits : List LimitRequest) (r1 : LimitResponse),
      evaluateLoop store now args initialResponse = Except.ok (limits, r1) →
      pre = evaluateTrace store now 0 args ++ a1 →
      commitTrace 0 limits = a1 ++ e :: post →
      (∀ k, (e = Event.openKey k ∨ e = Event.stringDMA k) →
        ∀ j, j ≤ k → Event.validated j ∈ pre) ∧
      (∀ k, (e = Event.stringSet k ∨ e = Event.setExpire k) →
        ∀ j, j < args.length → Event.validated j ∈ pre) := by
    intro a1 limits r1 hE hp hc
    have hm : e ∈ commitTrace 0 limits := by rw [hc]; simp
    obtain ⟨k0, hk0⟩ := mem_commitTrace limits 0 e hm
    constructor
    · intro k hk
      rcases hk with hk | hk <;> rcases hk0 with hk0 | hk0 <;> rw [hk] at hk0 <;> simp at hk0
    · intro k _ j hj
      obtain ⟨hf, _⟩ := evaluateLoop_ok hE
      rw [hp]
      exact List.mem_append_left _ (validated_mem_evaluateTrace hf 0 j (by omega) (by omega))
  have hread : ∀ c : List Event, evaluateTrace store now 0 args = pre ++ e :: c →
      (∀ k, (e = Event.openKey k ∨ e = Event.stringDMA k) →
        ∀ j, j ≤ k → Event.validated j ∈ pre) ∧
      (∀ k, (e = Event.stringSet k ∨ e = Event.setExpire k) →
        ∀ j, j < args.length → Event.validated j ∈ pre) := by
    intro c hc
    constructor
    · intro k hk j hj
      exact (access_in_evaluateTrace args 0 pre c e hc k hk).2 j (by omega) hj
    · intro k hk
      have hm : e ∈ evaluateTrace store now 0 args := by rw [hc]; simp
      obtain ⟨k0, hk0⟩ := mem_evaluateTrace args 0 e hm
      rcases hk with hk | hk <;> rcases hk0 with hk0 | hk0 | hk0 <;> rw [hk] at hk0 <;>
        simp at hk0
  unfold RateLimitTrace at h
  cases hE : evaluateLoop store now args initialResponse with
  | error err =>
    rw [hE] at h
    simp only [List.append_nil] at h
    exact hread post h
  | ok p =>
    obtain ⟨limits, r1⟩ := p
    rw [hE] at h
    simp only at h
    rcases List.append_eq_append_iff.1 h with ⟨a1, h1, h2⟩ | ⟨c1, h1, h2⟩
    · exact hwrite a1 limits r1 hE h1 h2
    · rcases c1 with _ | ⟨x, c2⟩
      · simp only [List.nil_append, List.append_nil] at h1 h2
        exact hwrite [] limits r1 hE (by simp [h1]) (by simp [← h2])
      · simp only [List.cons_append, List.cons.injEq] at h2
        rw [← h2.1] at h1
        exact hread c2 h1

theorem accesses_follow_validation_witness :
    RateLimitTrace scenarioStore 0 scenarioArgs =
        [Event.validated 0, Event.openKey 0, Event.stringDMA 0, Event.validated 1] ++
          Event.openKey 1 ::
            [Event.stringDMA 1, Event.stringSet 0, Event.setExpire 0, Event.stringSet 1,
              Event.setExpire 1] ∧
      ∀ j, j ≤ 1 → Event.validated j ∈
        [Event.validated 0, Event.openKey 0, Event.stringDMA 0, Event.validated 1] :=
  ⟨by decide,
    (accesses_follow_validation scenarioStore 0 scenarioArgs
      [Event.validated 0, Event.openKey 0, Event.stringDMA 0, Event.validated 1]
      [Event.stringDMA 1, Event.stringSet 0, Event.setExpire 0, Event.stringSet 1,
        Event.setExpire 1]
      (Event.openKey 1) (by decide)).1 1 (Or.inl rfl)⟩

/-- The entry of the keyspace at the key of a limiter after a replying call is
the entry written for a limiter that names the key, and for the limiter itself
when keys are distinct. -/
theorem written_at_key {store store1 : Store} {now : Int} {limits : List LimitRequest}
    {r1 r : LimitResponse} (hC : commitLoop now limits r1 store = some (r, store1)) :
    ∀ l ∈ limits,
      (∃ l1 ∈ limits, l1.key_handle = l.key_handle ∧
        store1 l.key_handle = writtenEntry now r.allowed l1) ∧
      ((limits.map LimitRequest.key_handle).Nodup →
        store1 l.key_handle = writtenEntry now r.allowed l) := by
  intro l hl
  have hal : r.allowed = r1.allowed := by
    rw [commitLoop_response hC, foldl_aggregate_allowed]
  rw [hal]
  exact ⟨(commitLoop_store hC l.key_handle).2 ⟨l, hl, rfl⟩,
    fun hKeys => commitLoop_written hC hKeys l hl⟩

theorem written_expire {store : Store} {now : Int} {args : List LimitArg}
    {limits : List LimitRequest} {r1 : LimitResponse}
    (hE : evaluateLoop store now args initialResponse = Except.ok (limits, r1))
    (hLL : ∀ l ∈ limits, isLL l.capacity) :
    ∀ l ∈ limits,
      writtenEntry now r1.allowed l =
        { value := KeyValue.string
            (some (add64 now (l.capacity - availableAfter r1.allowed l)))
          expire := some ((l.capacity - availableAfter r1.allowed l) / 1000000 + 1) } ∧
      0 ≤ l.capacity - availableAfter r1.allowed l ∧
      l.capacity - availableAfter r1.allowed l ≤ l.capacity := by
  intro l hl
  obtain ⟨_, _, _, b0, b1, _, _, q⟩ := limits_exact hE hLL l hl
  have hcap := (hLL l hl).2
  have t0 : Int.tdiv (l.capacity - availableAfter r1.allowed l) 1000000 =
      (l.capacity - availableAfter r1.allowed l) / 1000000 :=
    Int.tdiv_eq_ediv (by omega) (by omega)
  refine ⟨?_, by omega, by omega⟩
  rw [writtenEntry, q, t0]
  have t1 : add64 ((l.capacity - availableAfter r1.allowed l) / 1000000) 1 =
      (l.capacity - availableAfter r1.allowed l) / 1000000 + 1 := by
    unfold LL_MAX at hcap
    unfold add64 wrap64
    omega
  rw [t1]

/-- C14, as stated, fails: the call of a fresh limiter of cost 10 and capacity
100 has `reset_after = 10` and sets a time to live of 1 millisecond on the key,
not of `floor(10 / 10^9) + 1 = 1` second. -/
theorem expiry_is_not_in_seconds :
    RateLimitImpl emptyStore 0 freshArgs = Outcome.reply ⟨true, 9, 0, 10⟩ freshStoreAfter ∧
      (freshStoreAfter "a").expire = some 1 ∧
      (1 : Int) ≠ 1000 * (10 / 1000000000 + 1) :=
  ⟨rfl, rfl, by decide⟩

/-- C14, amended: for every limiter written by a replying call, the time to
live passed to `RedisModule_SetExpire` for its key is, in milliseconds,
`floor(reset_after / 10^6) + 1`, where `reset_after = capacity - available_after`
is in nanoseconds; rounded up to whole seconds it is
`floor(reset_after / 10^9) + 1`. The key holds the entry written for a limiter
that names it, which is the limiter itself when keys are distinct. -/
theorem expiry_is_in_milliseconds (store store1 : Store) (now : Int) (args : List LimitArg)
    (limits : List LimitRequest) (r1 r : LimitResponse)
    (hE : evaluateLoop store now args initialResponse = Except.ok (limits, r1))
    (hR : RateLimitImpl store now args = Outcome.reply r store1)
    (hLL : ∀ l ∈ limits, isLL l.capacity) :
    ∀ l ∈ limits,
      (writtenEntry now r.allowed l).expire =
        some ((l.capacity - availableAfter r.allowed l) / 1000000 + 1) ∧
      ((l.capacity - availableAfter r.allowed l) / 1000000 + 1 + 999) / 1000 =
        (l.capacity - availableAfter r.allowed l) / 1000000000 + 1 ∧
      (∃ l1 ∈ limits, l1.key_handle = l.key_handle ∧
        store1 l.key_handle = writtenEntry now r.allowed l1) ∧
      ((limits.map LimitRequest.key_handle).Nodup →
        store1 l.key_handle = writtenEntry now r.allowed l) := by
  have hC := RateLimitImpl_reply hE hR
  have hal : r.allowed = r1.allowed := by
    rw [commitLoop_response hC, foldl_aggregate_allowed]
  intro l hl
  obtain ⟨w, x0, _⟩ := written_expire hE hLL l hl
  obtain ⟨k1, k2⟩ := written_at_key hC l hl
  rw [hal]
  rw [hal] at k1 k2
  refine ⟨by rw [w], ?_, k1, k2⟩
  generalize l.capacity - availableAfter r1.allowed l = x at x0
  omega

theorem expiry_is_in_milliseconds_witness :
    evaluateLoop emptyStore 0 freshArgs initialResponse
        = Except.ok (freshLimits, initialResponse) ∧
      RateLimitImpl emptyStore 0 freshArgs = Outcome.reply ⟨true, 9, 0, 10⟩ freshStoreAfter ∧
      (writtenEntry 0 true ⟨"a", 10, 100, 100⟩).expire =
        some ((100 - availableAfter true ⟨"a", 10, 100, 100⟩) / 1000000 + 1) :=
  ⟨rfl, rfl,
    ((expiry_is_in_milliseconds emptyStore freshStoreAfter 0 freshArgs freshLimits
      initialResponse ⟨true, 9, 0, 10⟩ rfl rfl (by decide)) ⟨"a", 10, 100, 100⟩
      (by decide)).1⟩

/-- C15, as stated, fails: the call of a fresh limiter of cost 10 and capacity
100 at `now = 0` stores `reset_at = 10` with a time to live of 1 millisecond;
at the time `t = LL_MAX`, later than `now` plus the time to live, the sum
`t + capacity` does not fit `ll_t` and the availability derived from the stored
`reset_at` is 0, where a key that does not exist gives 100. -/
theorem full_after_expiry_overflows :
    RateLimitImpl emptyStore 0 freshArgs = Outcome.reply ⟨true, 9, 0, 10⟩ freshStoreAfter ∧
      freshStoreAfter "a" = ⟨KeyValue.string (some 10), some 1⟩ ∧
      0 + 1 * 1000000 ≤ LL_MAX ∧
      deriveAvailable LL_MAX 100 (freshStoreAfter "a").value = Except.ok 0 ∧
      deriveAvailable LL_MAX 100 KeyValue.empty = Except.ok 100 :=
  ⟨rfl, rfl, by decide, rfl, rfl⟩

/-- C15, amended: for every limiter written by a replying call at an `ll_t`
time `now`, with `reset_after = r`, the time to live passed to the store is
`r / 10^6 + 1` milliseconds, which is strictly more than `r` nanoseconds; and at
every time `t >= now + TTL` for which `t + capacity - reset_at` fits `ll_t`,
the availability derived from the stored `reset_at` is the capacity, the value
a key that does not exist gives. -/
theorem key_expires_after_bucket_is_full (store store1 : Store) (now : Int)
    (args : List LimitArg) (limits : List LimitRequest) (r1 r : LimitResponse)
    (hE : evaluateLoop store now args initialResponse = Except.ok (limits, r1))
    (hR : RateLimitImpl store now args = Outcome.reply r store1)
    (hNow : isLL now)
    (hLL : ∀ l ∈ limits, isLL l.capacity) :
    ∀ l ∈ limits,
      (writtenEntry now r.allowed l).expire =
        some ((l.capacity - availableAfter r.allowed l) / 1000000 + 1) ∧
      l.capacity - availableAfter r.allowed l <
        ((l.capacity - availableAfter r.allowed l) / 1000000 + 1) * 1000000 ∧
      (∀ t reset_at : Int,
        (writtenEntry now r.allowed l).value = KeyValue.string (some reset_at) →
        now + ((l.capacity - availableAfter r.allowed l) / 1000000 + 1) * 1000000 ≤ t →
        isLL (t + l.capacity - reset_at) →
        deriveAvailable t l.capacity (writtenEntry now r.allowed l).value
            = Except.ok l.capacity ∧
          deriveAvailable t l.capacity KeyValue.empty = Except.ok l.capacity) ∧
      ((limits.map LimitRequest.key_handle).Nodup →
        store1 l.key_handle = writtenEntry now r.allowed l) := by
  have hC := RateLimitImpl_reply hE hR
  have hal : r.allowed = r1.allowed := by
    rw [commitLoop_response hC, foldl_aggregate_allowed]
  intro l hl
  obtain ⟨w, x0, x1⟩ := written_expire hE hLL l hl
  obtain ⟨_, k2⟩ := written_at_key hC l hl
  obtain ⟨hf, _⟩ := evaluateLoop_ok hE
  obtain ⟨_, hv⟩ := forall₂_readLimit_mem hf
  obtain ⟨c0, c1, _⟩ := hv l hl
  have hcap := (hLL l hl).2
  rw [hal]
  rw [hal] at k2
  refine ⟨by rw [w], ?_, ?_, k2⟩
  · generalize l.capacity - availableAfter r1.allowed l = x at x0
    omega
  · intro t reset_at hs ht hx
    rw [w] at hs ⊢
    simp only [KeyValue.string.injEq, Option.some.injEq] at hs
    refine ⟨?_, rfl⟩
    rw [deriveAvailable_exact (by rw [hs]; exact hx), hs]
    generalize l.capacity - availableAfter r1.allowed l = x at x0 x1 hs ht
    have hge : reset_at ≤ t := by
      unfold isLL LL_MIN LL_MAX at hNow
      unfold LL_MAX at hcap
      rw [← hs]
      unfold add64 wrap64
      omega
    have : max 0 (min l.capacity (t + l.capacity - reset_at)) = l.capacity := by omega
    rw [this]

theorem key_expires_after_bucket_is_full_witness :
    evaluateLoop emptyStore 0 freshArgs initialResponse
        = Except.ok (freshLimits, initialResponse) ∧
      RateLimitImpl emptyStore 0 freshArgs = Outcome.reply ⟨true, 9, 0, 10⟩ freshStoreAfter ∧
      deriveAvailable 1000000 100 (writtenEntry 0 true ⟨"a", 10, 100, 100⟩).value
        = Except.ok 100 :=
  ⟨rfl, rfl,
    (((key_expires_after_bucket_is_full emptyStore freshStoreAfter 0 freshArgs freshLimits
      initialResponse ⟨true, 9, 0, 10⟩ rfl rfl (by decide) (by decide))
      ⟨"a", 10, 100, 100⟩ (by decide)).2.2.1 1000000 10 rfl (by decide) (by decide)).1⟩

/-- C16, as stated, fails: at `now = 100` the key `a` holds `reset_at = 50` (a
full bucket) and the key `b` holds `reset_at = 200` (an empty bucket of
capacity 100); the batch is denied and the `reset_at` of `a` is rewritten to
`now = 100`. -/
theorem denied_write_changes_stale_reset_at :
    evaluateLoop staleStore 100 scenarioArgs initialResponse
        = Except.ok (staleLimits, ⟨false, LL_MAX, 0, 0⟩) ∧
      RateLimitImpl staleStore 100 scenarioArgs
        = Outcome.reply ⟨false, 0, 10, 100⟩ staleStoreAfter ∧
      (staleStore "a").value = KeyValue.string (some 50) ∧
      (staleStoreAfter "a").value = KeyValue.string (some 100) :=
  ⟨rfl, rfl, rfl, rfl⟩

/-- C16, amended: for every denied batch in which the limiters that name the
same key have the same capacity, and every limiter whose key holds an `ll_t`
value `reset_at` with `now <= reset_at <= now + capacity` (the clamp of line
101 is not active), the `reset_at` stored after the call is the `reset_at`
stored before the call. -/
theorem denied_write_keeps_reset_at (store store1 : Store) (now : Int) (args : List LimitArg)
    (limits : List LimitRequest) (r1 r : LimitResponse)
    (hE : evaluateLoop store now args initialResponse = Except.ok (limits, r1))
    (hR : RateLimitImpl store now args = Outcome.reply r store1)
    (hDen : r.allowed = false)
    (hCap : ∀ l ∈ limits, ∀ l1 ∈ limits,
      l.key_handle = l1.key_handle → l.capacity = l1.capacity)
    (hLL : ∀ l ∈ limits, isLL l.capacity) :
    ∀ l ∈ limits, ∀ reset_at : Int,
      (store l.key_handle).value = KeyValue.string (some reset_at) →
      isLL reset_at → now ≤ reset_at → reset_at ≤ now + l.capacity →
      (store1 l.key_handle).value = KeyValue.string (some reset_at) := by
  have hC := RateLimitImpl_reply hE hR
  obtain ⟨hf, _⟩ := evaluateLoop_ok hE
  obtain ⟨_, hv⟩ := forall₂_readLimit_mem hf
  intro l hl reset_at hs hr h0 h1
  obtain ⟨⟨l1, m1, e1, w1⟩, _⟩ := written_at_key hC l hl
  obtain ⟨_, _, _, _, d⟩ := hv l hl
  obtain ⟨_, _, _, _, d1⟩ := hv l1 m1
  have hc : l1.capacity = l.capacity := hCap l1 m1 l hl e1
  rw [hc, e1] at d1
  have hav : l1.available = l.available := deriveAvailable_unique d1 d
  have hcap := (hLL l hl).2
  rw [hs, deriveAvailable_exact (by
    unfold isLL LL_MIN LL_MAX at *
    omega)] at d
  have hd := Except.ok.inj d
  rw [w1, hDen, writtenEntry]
  simp only [debit, Bool.false_eq_true, if_false]
  rw [hc, hav, ← hd]
  have : add64 now (sub64 l.capacity (max 0 (min l.capacity (now + l.capacity - reset_at))))
      = reset_at := by
    unfold isLL LL_MIN LL_MAX at hr
    unfold LL_MAX at hcap
    unfold add64 sub64 wrap64
    omega
  rw [this]

theorem denied_write_keeps_reset_at_witness :
    evaluateLoop scenarioStore 0 scenarioArgs initialResponse
        = Except.ok (scenarioLimits, ⟨false, LL_MAX, 0, 0⟩) ∧
      RateLimitImpl scenarioStore 0 scenarioArgs
        = Outcome.reply ⟨false, 0, 5, 95⟩ scenarioStoreAfter ∧
      (scenarioStore "a").value = KeyValue.string (some 50) ∧
      (scenarioStoreAfter "a").value = KeyValue.string (some 50) :=
  ⟨rfl, rfl, rfl,
    denied_write_keeps_reset_at scenarioStore scenarioStoreAfter 0 scenarioArgs
      scenarioLimits ⟨false, LL_MAX, 0, 0⟩ ⟨false, 0, 5, 95⟩ rfl rfl rfl (by decide)
      (by decide) ⟨"a", 10, 100, 50⟩ (by decide) 50 rfl (by decide) (by decide)
      (by decide)⟩

/-- C20: for every reply of a call on a non-empty batch (every cost is then
`> 0`): `0 <= ready_after <= reset_after`, `remaining >= 0`, `remaining = 0` if
and only if `ready_after > 0`, and a reply with `allowed = false` has
`remaining = 0` and `ready_after > 0`. -/
theorem reply_fields_are_consistent (store store1 : Store) (now : Int) (args : List LimitArg)
    (limits : List LimitRequest) (r1 r : LimitResponse)
    (hE : evaluateLoop store now args initialResponse = Except.ok (limits, r1))
    (hR : RateLimitImpl store now args = Outcome.reply r store1)
    (hne : limits ≠ [])
    (hLL : ∀ l ∈ limits, isLL l.capacity) :
    0 ≤ r.ready_after ∧ r.ready_after ≤ r.reset_after ∧ 0 ≤ r.remaining ∧
      (r.remaining = 0 ↔ 0 < r.ready_after) ∧
      (r.allowed = false → r.remaining = 0 ∧ 0 < r.ready_after) := by
  have hC := RateLimitImpl_reply hE hR
  obtain ⟨hal, ⟨m2, _⟩, ⟨y2, y3⟩, ⟨z2, z3⟩⟩ := reply_exact hE hC hLL
  obtain ⟨la, hla, ea⟩ := reply_remaining_attained hE hC hne hLL
  have hx := limits_exact hE hLL
  rw [← hal] at hx
  have hpos := reply_costs_pos hE hC
  obtain ⟨_, _, _, _, ha⟩ := evaluateLoop_ok hE
  have h0 : 0 ≤ r.ready_after := by
    rcases y3 with y3 | ⟨l, hl, e⟩ <;> omega
  have h1 : r.ready_after ≤ r.reset_after := by
    rcases y3 with y3 | ⟨l, hl, e⟩
    · rcases z3 with z3 | ⟨l, hl, e⟩
      · omega
      · obtain ⟨_, _, _, _, b1, _⟩ := hx l hl
        omega
    · obtain ⟨_, c1, _, _, b1, _⟩ := hx l hl
      have := z2 l hl
      omega
  have h2 : 0 ≤ r.remaining := by
    obtain ⟨_, _, _, b0, _⟩ := hx la hla
    rw [ea]
    exact (ediv_facts _ _ (hpos la hla) b0).2.2.2
  have hlow : ∀ l ∈ limits, availableAfter r.allowed l < l.cost →
      r.remaining = 0 ∧ 0 < r.ready_after := by
    intro l hl hlt
    obtain ⟨_, _, _, b0, _⟩ := hx l hl
    have q := m2 l hl
    rw [Int.ediv_eq_zero_of_lt b0 hlt] at q
    have := y2 l hl
    exact ⟨by omega, by omega⟩
  refine ⟨h0, h1, h2, ⟨?_, ?_⟩, ?_⟩
  · intro hz
    obtain ⟨_, _, _, b0, _⟩ := hx la hla
    have := (ediv_facts _ _ (hpos la hla) b0).1 (by rw [← ea, hz])
    exact (hlow la hla this).2
  · intro hp
    rcases y3 with y3 | ⟨l, hl, e⟩
    · omega
    · exact (hlow l hl (by omega)).1
  · intro hden
    have hr1 : ¬ (r1.allowed = true) := by rw [← hal, hden]; decide
    have : ∃ l ∈ limits, l.available < l.cost := by
      by_contra hcon
      exact hr1 (ha.2 ⟨rfl, fun l hl => by
        by_contra hlt
        exact hcon ⟨l, hl, by omega⟩⟩)
    obtain ⟨l, hl, hlt⟩ := this
    refine hlow l hl ?_
    rw [hden]
    exact hlt

theorem reply_fields_are_consistent_witness :
    evaluateLoop scenarioStore 0 scenarioArgs initialResponse
        = Except.ok (scenarioLimits, ⟨false, LL_MAX, 0, 0⟩) ∧
      RateLimitImpl scenarioStore 0 scenarioArgs
        = Outcome.reply ⟨false, 0, 5, 95⟩ scenarioStoreAfter ∧
      ((0 : Int) ≤ 5 ∧ (5 : Int) ≤ 95 ∧ (0 : Int) ≤ 0 ∧ ((0 : Int) = 0 ↔ (0 : Int) < 5) ∧
        (false = false → (0 : Int) = 0 ∧ (0 : Int) < 5)) :=
  ⟨rfl, rfl,
    reply_fields_are_consistent scenarioStore scenarioStoreAfter 0 scenarioArgs
      scenarioLimits ⟨false, LL_MAX, 0, 0⟩ ⟨false, 0, 5, 95⟩ rfl rfl (by decide)
      (by decide)⟩

/-- C17, as stated, fails: after nine calls of the fresh limiter of capacity
100 and cost 10 at `now = 0`, the key holds `reset_at = 90`; the 10th call has
10 available before it, not 0, and replies `allowed = true` with
`remaining = 0`, `ready_after = 10`, `reset_after = 100`. -/
theorem tenth_call_is_admitted :
    storeAfterCalls 0 freshArgs 9 emptyStore = some (freshStoreAfterCalls 9) ∧
      (freshStoreAfterCalls 9 "a").value = KeyValue.string (some 90) ∧
      deriveAvailable 0 100 (freshStoreAfterCalls 9 "a").value = Except.ok 10 ∧
      RateLimitImpl (freshStoreAfterCalls 9) 0 freshArgs
        = Outcome.reply ⟨true, 0, 10, 100⟩ (freshStoreAfterCalls 10) :=
  ⟨rfl, rfl, rfl, rfl⟩

/-- C17, amended: starting from a fresh key, the single limiter of capacity 100
and cost 10 called at `now = 0` is admitted ten times; the 10th call has 10
available before it and replies `allowed = true`, `remaining = 0`,
`ready_after = 10`, `reset_after = 100`; the 11th call has 0 available before
it and replies `allowed = false`, `remaining = 0`, `ready_after = 10`,
`reset_after = 100`. -/
theorem eleventh_call_is_denied :
    repeatCalls 0 freshArgs 11 emptyStore =
        some [⟨true, 9, 0, 10⟩, ⟨true, 8, 0, 20⟩, ⟨true, 7, 0, 30⟩, ⟨true, 6, 0, 40⟩,
          ⟨true, 5, 0, 50⟩, ⟨true, 4, 0, 60⟩, ⟨true, 3, 0, 70⟩, ⟨true, 2, 0, 80⟩,
          ⟨true, 1, 0, 90⟩, ⟨true, 0, 10, 100⟩, ⟨false, 0, 10, 100⟩] ∧
      storeAfterCalls 0 freshArgs 10 emptyStore = some (freshStoreAfterCalls 10) ∧
      deriveAvailable 0 100 (freshStoreAfterCalls 10 "a").value = Except.ok 0 ∧
      RateLimitImpl (freshStoreAfterCalls 10) 0 freshArgs
        = Outcome.reply ⟨false, 0, 10, 100⟩
          (SetExpire (StringSet (freshStoreAfterCalls 10) "a" 100) "a" 1) :=
  ⟨by decide, rfl, rfl, rfl⟩

theorem forall₂_of_perm {α β : Type} {R : α → β → Prop} {xs xs1 : List α}
    (hp : xs.Perm xs1) :
    ∀ ys : List β, List.Forall₂ R xs ys → ∃ ys1, ys.Perm ys1 ∧ List.Forall₂ R xs1 ys1 := by
  induction hp with
  | nil => intro ys h; exact ⟨ys, List.Perm.refl _, h⟩
  | cons x _ ih =>
    intro ys h
    cases h with
    | cons hxy hrest =>
      obtain ⟨ys1, p1, f1⟩ := ih _ hrest
      exact ⟨_ :: ys1, List.Perm.cons _ p1, List.Forall₂.cons hxy f1⟩
  | swap x y l =>
    intro ys h
    cases h with
    | cons hy hrest =>
      cases hrest with
      | cons hx hrest2 =>
        exact ⟨_, List.Perm.swap _ _ _, List.Forall₂.cons hx (List.Forall₂.cons hy hrest2)⟩
  | trans _ _ ih1 ih2 =>
    intro ys h
    obtain ⟨ys1, p1, f1⟩ := ih1 ys h
    obtain ⟨ys2, p2, f2⟩ := ih2 ys1 f1
    exact ⟨ys2, p1.trans p2, f2⟩

theorem aggregate_comm (z : LimitResponse) (x y : LimitRequest) :
    aggregate (aggregate z x) y = aggregate (aggregate z y) x := by
  simp only [aggregate, LimitResponse.mk.injEq, true_and]
  refine ⟨by omega, by omega, by omega⟩

/-- C18, as stated, fails: both limiters of `unitArgs` are valid, the key `a`
holds a value of another type and the key `b` a string that does not convert;
the call in the order `a, b` replies the error of the wrong type and the call
in the order `b, a` replies the error of the conversion. -/
theorem error_reply_depends_on_order :
    RateLimitImpl unreadableStore 0 unitArgs
        = Outcome.error Error.wrongType unreadableStore ∧
      RateLimitImpl unreadableStore 0 unitArgsSwapped
        = Outcome.error Error.errorParsingValue unreadableStore ∧
      Error.wrongType ≠ Error.errorParsingValue ∧
      List.Perm unitArgs unitArgsSwapped ∧
      (unitArgs.map LimitArg.key).Nodup :=
  ⟨rfl, rfl, by decide, List.Perm.swap _ _ _, by decide⟩

/-- C18, amended: for every keyspace, every `now` and every batch with pairwise
distinct keys that passes the first loop (every limiter is valid and every key
is readable) with all costs `> 0`, the call replies, and the call on any
permutation of the triples of the batch replies the same four values and
leaves the same keyspace. -/
theorem batch_order_is_not_observable (store : Store) (now : Int)
    (args args1 : List LimitArg) (limits : List LimitRequest) (r1 : LimitResponse)
    (hE : evaluateLoop store now args initialResponse = Except.ok (limits, r1))
    (hCost : ∀ l ∈ limits, 0 < l.cost)
    (hKeys : (args.map LimitArg.key).Nodup)
    (hPerm : args.Perm args1) :
    ∃ r store1, RateLimitImpl store now args = Outcome.reply r store1 ∧
      RateLimitImpl store now args1 = Outcome.reply r store1 := by
  obtain ⟨r, store1, hC⟩ := commitLoop_some now r1 store
    (fun l hl => ne_of_gt (hCost l hl))
  refine ⟨r, store1, RateLimitImpl_of_loops hE hC, ?_⟩
  obtain ⟨hf, a1, a2, a3, a4⟩ := evaluateLoop_ok hE
  obtain ⟨hargs, _⟩ := forall₂_readLimit_mem hf
  obtain ⟨limits1, hp, hf1⟩ := forall₂_of_perm hPerm limits hf
  obtain ⟨q1, hE1⟩ := evaluateLoop_of_forall₂ initialResponse hf1
  obtain ⟨_, b1, b2, b3, b4⟩ := evaluateLoop_ok hE1
  have hq : q1 = r1 := by
    obtain ⟨x1, x2, x3, x4⟩ := r1
    obtain ⟨y1, y2, y3, y4⟩ := q1
    simp only at a1 a2 a3 a4 b1 b2 b3 b4
    have : y1 = x1 := by
      rw [Bool.eq_iff_iff, a4, b4]
      constructor
      · exact fun h => ⟨h.1, fun l hl => h.2 l (hp.mem_iff.1 hl)⟩
      · exact fun h => ⟨h.1, fun l hl => h.2 l (hp.mem_iff.2 hl)⟩
    subst this
    rw [a1, a2, a3, b1, b2, b3]
  subst hq
  obtain ⟨r2, store2, hC1⟩ := commitLoop_some now q1 store
    (fun l hl => commitLoop_cost_ne hC l (hp.mem_iff.2 hl))
  have hr : r2 = r := by
    rw [commitLoop_response hC1, commitLoop_response hC]
    exact (List.Perm.foldl_eq' hp (fun x _ y _ z => aggregate_comm z x y) q1).symm
  subst hr
  have hk : (limits.map LimitRequest.key_handle).Nodup := by
    have e : args.map LimitArg.key = limits.map LimitRequest.key_handle := by
      rw [hargs, List.map_map]
      rfl
    rw [← e]
    exact hKeys
  have hk1 : (limits1.map LimitRequest.key_handle).Nodup :=
    (List.Perm.nodup_iff (List.Perm.map _ hp)).1 hk
  have hs : store2 = store1 := by
    funext k
    by_cases hx : ∃ l ∈ limits, l.key_handle = k
    · obtain ⟨l, hl, e⟩ := hx
      rw [← e, commitLoop_written hC hk l hl,
        commitLoop_written hC1 hk1 l (hp.mem_iff.1 hl)]
    · rw [(commitLoop_store hC k).1 (fun l hl e => hx ⟨l, hl, e⟩),
        (commitLoop_store hC1 k).1 (fun l hl e => hx ⟨l, hp.mem_iff.2 hl, e⟩)]
  rw [hs] at hC1
  exact RateLimitImpl_of_loops hE1 hC1

theorem batch_order_is_not_observable_witness :
    evaluateLoop scenarioStore 0 scenarioArgs initialResponse
        = Except.ok (scenarioLimits, ⟨false, LL_MAX, 0, 0⟩) ∧
      ∃ r store1, RateLimitImpl scenarioStore 0 scenarioArgs = Outcome.reply r store1 ∧
        RateLimitImpl scenarioStore 0 scenarioArgsSwapped = Outcome.reply r store1 :=
  ⟨rfl,
    batch_order_is_not_observable scenarioStore 0 scenarioArgs scenarioArgsSwapped
      scenarioLimits ⟨false, LL_MAX, 0, 0⟩ rfl (by decide) (by decide)
      (List.Perm.swap _ _ _)⟩

theorem commitLoop_append {now : Int} :
    ∀ (xs ys : List LimitRequest) (r r2 : LimitResponse) (s s2 : Store),
      commitLoop now (xs ++ ys) r s = some (r2, s2) →
      ∃ rm sm, commitLoop now xs r s = some (rm, sm) ∧
        commitLoop now ys rm sm = some (r2, s2) ∧ rm.allowed = r.allowed := by
  intro xs
  induction xs with
  | nil => intro ys r r2 s s2 h; exact ⟨r, s, rfl, h, rfl⟩
  | cons x rest ih =>
    intro ys r r2 s s2 h
    rw [List.cons_append] at h
    obtain ⟨hc, h⟩ := commitLoop_cons_some h
    obtain ⟨rm, sm, h1, h2, h3⟩ := ih ys _ r2 _ s2 h
    refine ⟨rm, sm, ?_, h2, h3⟩
    rw [commitLoop_cons, if_neg hc]
    exact h1

/-- The last limiter of a batch that names a key decides the entry of the key. -/
theorem commitLoop_last_write {now : Int} {pre post : List LimitRequest} {l : LimitRequest}
    {r r2 : LimitResponse} {s s2 : Store}
    (hC : commitLoop now (pre ++ l :: post) r s = some (r2, s2))
    (hLast : ∀ l1 ∈ post, l1.key_handle ≠ l.key_handle) :
    s2 l.key_handle = writtenEntry now r.allowed l := by
  obtain ⟨rm, sm, _, h2, h3⟩ := commitLoop_append pre (l :: post) r r2 s s2 hC
  obtain ⟨_, h4⟩ := commitLoop_cons_some h2
  rw [(commitLoop_store h4 l.key_handle).1 hLast, ← h3]
  simp [SetExpire, StringSet, writtenEntry]

/-- C19, as stated, fails: two entries that name the same key with different
capacities do not read the same availability (on a key that does not exist,
50 and 100); and at `now = LL_MAX` the `reset_at` left by the last entry is
`LL_MIN`, not `now + capacity - (available - cost)`. -/
theorem shared_key_entries_read_differently :
    evaluateLoop emptyStore 0 sharedKeyArgsAdmitted initialResponse
        = Except.ok ([⟨"k", 10, 50, 50⟩, ⟨"k", 20, 100, 100⟩], initialResponse) ∧
      (50 : Int) ≠ 100 ∧
      RateLimitImpl emptyStore LL_MAX sharedKeyUnitArgs
        = Outcome.reply ⟨true, 0, 1, 1⟩
          (SetExpire (StringSet (SetExpire (StringSet emptyStore "k" LL_MIN) "k" 1)
            "k" LL_MIN) "k" 1) ∧
      LL_MIN ≠ LL_MAX + 1 - (1 - 1) :=
  ⟨rfl, by decide, rfl, by decide⟩

/-- C19, amended: when a key is named by several limiters of an admitted batch,
each of them derives its availability in the first loop from the value the key
had before the call (the same availability for entries of the same capacity),
and the entry of the key after the call is the one written for the last
limiter that names it: when `now + capacity - (available - cost)` of that
limiter fits `ll_t`, this is the `reset_at` of the key, and the availability
derived again for that limiter is `available - cost`; the key is debited by
the cost of the last entry only. -/
theorem shared_key_last_entry_wins (store store1 : Store) (now : Int) (args : List LimitArg)
    (pre post : List LimitRequest) (l : LimitRequest) (r1 r : LimitResponse)
    (hE : evaluateLoop store now args initialResponse = Except.ok (pre ++ l :: post, r1))
    (hR : RateLimitImpl store now args = Outcome.reply r store1)
    (hAdm : r.allowed = true)
    (hLast : ∀ l1 ∈ post, l1.key_handle ≠ l.key_handle)
    (hLL : isLL l.capacity)
    (hExact : isLL (now + (l.capacity - (l.available - l.cost)))) :
    (∀ l1 ∈ pre ++ l :: post, l1.key_handle = l.key_handle →
      deriveAvailable now l1.capacity (store l.key_handle).value = Except.ok l1.available ∧
        (l1.capacity = l.capacity → l1.available = l.available)) ∧
    store1 l.key_handle = writtenEntry now true l ∧
    (store1 l.key_handle).value =
      KeyValue.string (some (now + l.capacity - (l.available - l.cost))) ∧
    deriveAvailable now l.capacity (store1 l.key_handle).value =
      Except.ok (l.available - l.cost) := by
  have hC := RateLimitImpl_reply hE hR
  obtain ⟨hf, _, _, _, ha⟩ := evaluateLoop_ok hE
  obtain ⟨_, hv⟩ := forall₂_readLimit_mem hf
  have hr1 : r1.allowed = true := by
    rw [← hAdm, commitLoop_response hC, foldl_aggregate_allowed]
  have hl : l ∈ pre ++ l :: post := by simp
  obtain ⟨c0, c1, a0, a1, d⟩ := hv l hl
  have hw := commitLoop_last_write hC hLast
  rw [hr1] at hw
  have hcost : l.cost ≤ l.available := (ha.1 hr1).2 l hl
  have hcap := hLL.2
  have hdeb : debit true l = l.available - l.cost := by
    rw [debit_eq a1 hcap (fun _ => hcost) c0]; simp
  have hval : (store1 l.key_handle).value =
      KeyValue.string (some (add64 now (sub64 l.capacity (l.available - l.cost)))) := by
    rw [hw, writtenEntry, hdeb]
  refine ⟨?_, hw, ?_, ?_⟩
  · intro l1 hl1 e1
    obtain ⟨_, _, _, _, d1⟩ := hv l1 hl1
    rw [e1] at d1
    refine ⟨d1, fun hc => ?_⟩
    rw [hc] at d1
    exact deriveAvailable_unique d1 d
  · rw [hval]
    have e : add64 now (sub64 l.capacity (l.available - l.cost)) =
        now + l.capacity - (l.available - l.cost) := by
      unfold isLL LL_MIN LL_MAX at hExact
      unfold LL_MAX at hcap
      unfold add64 sub64 wrap64
      omega
    rw [e]
  · rw [hval]
    exact deriveAvailable_written (by omega) (by omega) hcap

theorem shared_key_last_entry_wins_witness :
    evaluateLoop emptyStore 0 sharedKeyArgsAdmitted initialResponse
        = Except.ok ([⟨"k", 10, 50, 50⟩] ++ ⟨"k", 20, 100, 100⟩ :: [], initialResponse) ∧
      RateLimitImpl emptyStore 0 sharedKeyArgsAdmitted
        = Outcome.reply ⟨true, 4, 0, 20⟩
          (SetExpire (StringSet (SetExpire (StringSet emptyStore "k" 10) "k" 1) "k" 20)
            "k" 1) ∧
      deriveAvailable 0 100
        ((SetExpire (StringSet (SetExpire (StringSet emptyStore "k" 10) "k" 1) "k" 20)
            "k" 1) "k").value = Except.ok (100 - 20) :=
  ⟨rfl, rfl,
    (shared_key_last_entry_wins emptyStore
      (SetExpire (StringSet (SetExpire (StringSet emptyStore "k" 10) "k" 1) "k" 20) "k" 1)
      0 sharedKeyArgsAdmitted [⟨"k", 10, 50, 50⟩] [] ⟨"k", 20, 100, 100⟩ initialResponse
      ⟨true, 4, 0, 20⟩ rfl rfl rfl (by decide) (by decide) (by decide)).2.2.2⟩

end RateLimit
